import Mathlib

/-!
# Verification of the Sync Editing core (CudaText `cuda_sync_editing` plugin)

Shallow embedding, in Lean 4, of the token-index data model and the mutation
algorithms of `src/__init__.py`:

* `TokenRef` (class `TokenRef`, lines 290-307) with its in-place `shift`;
* the per-session index: `dictionary : word -> list of TokenRef` and
  `line_index : line -> list of (TokenRef, word)` (class `SyncEditSession`);
* the scanner that builds the index at session start (`Command.start_sync_edit`,
  naive mode and lexer mode) and its singleton pruning;
* the live-edit propagator (`Command.redraw`);
* `Command._cleanup_empty_word`;
* the key handler (`Command.on_key`) and the caret-collapse step of
  `Command.finish_editing`.

Python's mutable `TokenRef` objects are shared by identity between
`dictionary` and `line_index`; we model the object store as an explicit heap
(`List TokenRef` indexed by token ids), so Python's `is` identity tests become
equality of ids.  Python `dict`s (insertion ordered, unique keys) are modelled
as association lists: assignment replaces in place or appends, `del` removes.
Text is modelled as `List Char`; the configurable identifier regular
expression (default `\w+`, "one or more word characters") is modelled by its
character class `w : Char → Bool`, so `regex.match(line[i:])` succeeds exactly
when the character at `i` satisfies `w`, and `match.group(0)` is the maximal
`w`-run starting at `i`.  Rendering (`attr`/marker calls) and profiling are
external effects with no bearing on the index state and are not modelled.
-/

/-- One token occurrence: the mutable record
`{start_x, start_y, end_x, end_y, text, style}` of class `TokenRef`.
Column coordinates are integers (Python ints); `shift` may move them by a
negative delta.  Line numbers are naturals. -/
structure TokenRef where
  start_x : Int
  start_y : Nat
  end_x : Int
  end_y : Nat
  text : List Char
  style : String
deriving DecidableEq, Repr

/-- `TokenRef.shift(delta)`: add `delta` to `start_x` and `end_x` in place. -/
def TokenRef.shift (t : TokenRef) (delta : Int) : TokenRef :=
  { t with start_x := t.start_x + delta, end_x := t.end_x + delta }

/-- Default token used by the heap getter for out-of-range ids. -/
def TokenRef.dummy : TokenRef := ⟨0, 0, 0, 0, [], ""⟩

/-- Dereference a token id in the heap (Python: just following the object
reference). -/
def hGet (heap : List TokenRef) (tid : Nat) : TokenRef :=
  heap.getD tid TokenRef.dummy

/-! ## Association lists, modelling Python `dict` -/

/-- `d.get(k)` / `d[k]` lookup. -/
def alistGet? [DecidableEq α] : List (α × β) → α → Option β
  | [], _ => none
  | kv :: rest, k => if kv.1 = k then some kv.2 else alistGet? rest k

/-- `d[k] = v`: replace the binding in place if `k` is present (Python dicts
keep the key's position), otherwise append a new binding at the end. -/
def alistSet [DecidableEq α] : List (α × β) → α → β → List (α × β)
  | [], k, v => [(k, v)]
  | kv :: rest, k, v => if kv.1 = k then (k, v) :: rest else kv :: alistSet rest k v

/-- `del d[k]`. -/
def alistDel [DecidableEq α] (l : List (α × β)) (k : α) : List (α × β) :=
  l.filter (fun kv => decide (kv.1 ≠ k))

/-- `defaultdict(list)` access-and-append: `d[k].append(v)` (a missing key is
created with the empty list, then appended to). -/
def alistAppend [DecidableEq α] (l : List (α × List β)) (k : α) (v : β) : List (α × List β) :=
  alistSet l k (((alistGet? l k).getD []) ++ [v])

/-! ## Session state -/

/-- The index part of one `SyncEditSession`: the token heap, the word
dictionary, the per-line spatial index and the currently tracked word
(`session.our_key`).  `dictionary` maps the normalized word to the list of
token ids (discovery order); `line_index` maps a line number to the list of
`(token id, word)` pairs on that line. -/
structure SyncState where
  heap : List TokenRef
  dictionary : List (List Char × List Nat)
  line_index : List (Nat × List (Nat × List Char))
  our_key : Option (List Char)
deriving DecidableEq, Repr

/-! ## Text and identifier matching

A buffer is a list of lines; `ed.get_text_line(y)` is `getLine`.  The
identifier regular expression (config `identifier_regex`, default `\w+`) is
modelled by its character class `w`. -/

/-- `ed.get_text_line(y)`. -/
def getLine (lines : List (List Char)) (y : Nat) : List Char :=
  lines.getD y []

/-- `regex.match(line[i:]) is not None` for a `\w+`-style regex: true iff the
character at position `i` exists and is in the class `w`. -/
def matchAt (w : Char → Bool) (line : List Char) (i : Nat) : Bool :=
  match line.get? i with
  | some c => w c
  | none => false

/-- `match.group(0)` of `regex.match(line[i:])`: the maximal `w`-run starting
at `i` (empty when there is no match). -/
def takeRun (w : Char → Bool) (line : List Char) (i : Nat) : List Char :=
  (line.drop i).takeWhile w

/-- Word-key normalization (`key_normalizer`): lowercase the word unless
`case_sensitive`. -/
def normWord (cs : Bool) (word : List Char) : List Char :=
  if cs then word else word.map Char.toLower

/-- The backward-scan loop shared by `Command.redraw`'s two scans
(`while start_pos > 0 and regex.match(line[start_pos:]): start_pos -= 1`). -/
def backScanLoop (w : Char → Bool) (line : List Char) : Nat → Nat
  | 0 => 0
  | n + 1 => if matchAt w line (n + 1) then backScanLoop w line n else n + 1

/-- `Command.redraw` step 1 (lines 2019-2054): locate the start column of the
identifier run containing (or immediately preceding) the first caret. -/
def wordStartFromCaret (w : Char → Bool) (line : List Char) (x : Nat) : Nat :=
  -- clamp caret column into [0, len(line)]
  let fx := min x line.length
  -- "workaround for end of id": step back once when not directly on a match
  let sp0 := if 0 < fx ∧ (line.length ≤ fx ∨ ¬ matchAt w line fx) then fx - 1 else fx
  let sp1 := backScanLoop w line sp0
  -- at 0 stay; otherwise we stopped one short of the word start
  if sp1 = 0 then 0 else sp1 + 1

/-- `Command.redraw` steps 1-2 (lines 2056-2067): the new word under the first
caret, already normalized; `[]` when the word was deleted completely. -/
def newWordAt (w : Char → Bool) (cs : Bool) (line : List Char) (x : Nat) : List Char :=
  let run := takeRun w line (wordStartFromCaret w line x)
  if run.isEmpty then [] else normWord cs run

/-- `Command.redraw` lines 2114-2134: re-locate a token's true start column by
scanning backward from its old start position `oldX`; when position 0 has no
match the old position is kept ("shouldn't happen" branch). -/
def searchTokenStart (w : Char → Bool) (line : List Char) (oldX : Nat) : Nat :=
  let s1 := backScanLoop w line oldX
  if s1 = 0 then
    if ¬ matchAt w line 0 then oldX else 0
  else s1 + 1

/-! ## Line-index update loops

The three `for line_num in ...`/`for token_ref in ...` loops that edit
`line_index` (relabel in `redraw` step 4, key removal in
`_cleanup_empty_word`, identity removal in the singleton pruning), factored
out verbatim as named folds. -/

/-- `Command.redraw` lines 2192-2198: on each affected line, replace the word
key `old_key` by `new_key` in that line's entries. -/
def relabelLines (oldKey newKey : List Char) (A : List Nat)
    (li : List (Nat × List (Nat × List Char))) : List (Nat × List (Nat × List Char)) :=
  A.foldl
    (fun li ln =>
      match alistGet? li ln with
      | none => li
      | some entries =>
          alistSet li ln (entries.map (fun e => (e.1, if e.2 = oldKey then newKey else e.2))))
    li

/-- `Command._cleanup_empty_word` lines 1113-1122: on each affected line, drop
the entries carrying `word_key`, deleting the line when it becomes empty. -/
def removeWordFromLines (wordKey : List Char) (A : List Nat)
    (li : List (Nat × List (Nat × List Char))) : List (Nat × List (Nat × List Char)) :=
  A.foldl
    (fun li ln =>
      match alistGet? li ln with
      | none => li
      | some entries =>
          let entries' := entries.filter (fun e => decide (e.2 ≠ wordKey))
          if entries' = [] then alistDel li ln else alistSet li ln entries')
    li

/-- `Command.start_sync_edit` lines 946-956: for each pruned token, drop its
entry (identity comparison) from its line, deleting the line when it becomes
empty. -/
def removeTokensFromLines (heap : List TokenRef) (tids : List Nat)
    (li : List (Nat × List (Nat × List Char))) : List (Nat × List (Nat × List Char)) :=
  tids.foldl
    (fun li tid =>
      let lineNum := (hGet heap tid).start_y
      match alistGet? li lineNum with
      | none => li
      | some entries =>
          let entries' := entries.filter (fun e => decide (e.1 ≠ tid))
          if entries' = [] then alistDel li lineNum else alistSet li lineNum entries')
    li

/-! ## The live-edit propagator (`Command.redraw`) -/

/-- `Command.redraw` lines 2141-2153: after updating one occurrence, shift
every *other* token recorded on the same line whose current start column is at
or beyond the occurrence's original end (`old_token_x + old_length`) by
`delta`.  `entries` is `line_index[line_num]`; Python's `other_ref is
token_ref` identity test is id equality. -/
def shiftOthers (tid : Nat) (oldX : Int) (oldLen : Nat) (delta : Int)
    (entries : List (Nat × List Char)) (heap : List TokenRef) : List TokenRef :=
  entries.foldl
    (fun h e =>
      if e.1 = tid then h
      else
        let o := hGet h e.1
        if oldX + (oldLen : Int) ≤ o.start_x then h.set e.1 (o.shift delta) else h)
    heap

/-- `Command.redraw` lines 2100-2153, the body of the per-occurrence loop:
update the token's own span (zero-length when the word was deleted, otherwise
re-located by backward scan with its end set to `start + new_length` and its
text replaced), then shift the other tokens on its line when `delta != 0`. -/
def processOne (w : Char → Bool) (lines : List (List Char)) (newKey : List Char)
    (delta : Int) (oldLen : Nat) (li : List (Nat × List (Nat × List Char)))
    (heap : List TokenRef) (tid : Nat) : List TokenRef :=
  let tok := hGet heap tid
  let lineNum := tok.start_y
  let oldX := tok.start_x
  let heap1 :=
    if newKey.length = 0 then
      heap.set tid { tok with end_x := tok.start_x, text := [] }
    else
      let yline := getLine lines lineNum
      let sx := searchTokenStart w yline oldX.toNat
      heap.set tid
        { tok with start_x := (sx : Int), end_x := (sx : Int) + (newKey.length : Int),
                   text := newKey }
  if delta ≠ 0 then
    match alistGet? li lineNum with
    | some entries => shiftOthers tid oldX oldLen delta entries heap1
    | none => heap1
  else heap1

/-- `Command.redraw` (lines 2000-2204, the index-mutating part; marker
repainting is external).  Reads the new word at the first caret, computes
`delta = new_length - len(edited_tokens[0].text)`, exits early when nothing
changed, updates every occurrence and shifts neighbours per line, then
relabels the dictionary bucket and the affected `line_index` entries when the
word changed to a different non-empty string (met2: a pre-existing bucket of
the new name is overwritten, never merged). -/
def redraw (w : Char → Bool) (cs : Bool) (lines : List (List Char))
    (carets : List (Nat × Nat)) (s : SyncState) : SyncState :=
  match s.our_key with
  | none => s
  | some oldKey =>
    match carets with
    | [] => { s with our_key := none }
    | (fx, fy) :: _ =>
      let line := getLine lines fy
      let newKey := newWordAt w cs line fx
      let newLength := newKey.length
      let edited := (alistGet? s.dictionary oldKey).getD []
      match edited with
      | [] => { s with our_key := none }
      | t0 :: _ =>
        -- CRITICAL FIX comment in source: old_length from the token's own
        -- recorded text, not from the dictionary key
        let oldLength := (hGet s.heap t0).text.length
        let delta : Int := (newLength : Int) - (oldLength : Int)
        if delta = 0 ∧ oldKey = newKey then { s with our_key := some oldKey }
        else
          let affectedLines := (edited.map (fun tid => (hGet s.heap tid).start_y)).dedup
          let heap' := edited.foldl (processOne w lines newKey delta oldLength s.line_index) s.heap
          if newKey ≠ [] ∧ oldKey ≠ newKey then
            let dict' := alistDel (alistSet s.dictionary newKey edited) oldKey
            let li' := relabelLines oldKey newKey affectedLines s.line_index
            { heap := heap', dictionary := dict', line_index := li', our_key := some newKey }
          else
            { s with heap := heap', our_key := some oldKey }

/-! ## `Command._cleanup_empty_word` (lines 1092-1126) -/

/-- `_cleanup_empty_word(word_key)`: when the bucket exists and every token in
it is zero-length (text `''` or `start_x == end_x`), delete the bucket and
remove the word's entries from `line_index` on the affected lines, dropping
lines that become empty.  Returns the new state and the `True/False` result.
A falsy `word_key` (`None` or `''`) is modelled by `[]`. -/
def cleanupEmptyWord (s : SyncState) (wordKey : List Char) : SyncState × Bool :=
  if wordKey = [] then (s, false)
  else
    match alistGet? s.dictionary wordKey with
    | none => (s, false)
    | some tokensList =>
      if tokensList = [] then (s, false)
      else
        let allEmpty := tokensList.all (fun tid =>
          (hGet s.heap tid).text = [] ∨ (hGet s.heap tid).start_x = (hGet s.heap tid).end_x)
        if allEmpty then
          let affectedLines := (tokensList.map (fun tid => (hGet s.heap tid).start_y)).dedup
          let dict' := alistDel s.dictionary wordKey
          let li' := removeWordFromLines wordKey affectedLines s.line_index
          ({ s with dictionary := dict', line_index := li' }, true)
        else (s, false)

/-! ## The scanner (`Command.start_sync_edit`, lines 851-956) -/

/-- Style tag used for naive-mode pseudo-tokens. -/
def idStyle : String := "id"

/-- Recursion worker for `wordRuns`.  The `fuel` argument only makes the
recursion structural (each step strictly shortens the line, so any
`fuel ≥ line length` gives the same result); it is always called with enough
fuel. -/
def wordRunsAux (w : Char → Bool) : Nat → List Char → Nat → List (Nat × Nat × List Char)
  | 0, _, _ => []
  | _ + 1, [], _ => []
  | fuel + 1, c :: rest, i =>
    if w c then
      let run := c :: rest.takeWhile w
      (i, i + run.length, run) :: wordRunsAux w fuel (rest.dropWhile w) (i + run.length)
    else
      wordRunsAux w fuel rest (i + 1)

/-- All matches of the identifier regex over one line
(`regex.finditer(cur_line)` for a `\w+`-style regex): the maximal `w`-runs,
as `(match.start, match.end, match.group())` triples. -/
def wordRuns (w : Char → Bool) (line : List Char) (i : Nat) : List (Nat × Nat × List Char) :=
  wordRunsAux w line.length line i

/-- Naive mode, one line (lines 860-874): every regex match on line `y`,
clipped column-precisely on the selection's first/last line
(`if y == start_l and mstart < x1: continue`, `if y == end_l and mend > x2:
continue`), as a `TokenRef` with style `'id'`. -/
def lineTokens (w : Char → Bool) (y startL endL : Nat) (x1 x2 : Int)
    (line : List Char) : List TokenRef :=
  (wordRuns w line 0).filterMap (fun r =>
    if y = startL ∧ (r.1 : Int) < x1 then none
    else if y = endL ∧ x2 < (r.2.1 : Int) then none
    else some ⟨(r.1 : Int), y, (r.2.1 : Int), y, r.2.2, idStyle⟩)

/-- Naive mode (lines 856-874): scan lines `start_l .. end_l` of the buffer. -/
def naiveTokens (w : Char → Bool) (lines : List (List Char)) (startL endL : Nat)
    (x1 x2 : Int) : List TokenRef :=
  (List.range (endL + 1 - startL)).flatMap (fun i =>
    lineTokens w (startL + i) startL endL x1 x2 (getLine lines (startL + i)))

/-- One lexer token as returned by `ed.get_token(TOKEN_LIST_SUB, ...)`. -/
structure LexToken where
  x1 : Int
  y1 : Nat
  x2 : Int
  y2 : Nat
  str : List Char
  style : String
deriving DecidableEq, Repr

/-- Lexer mode (lines 913-928): keep tokens inside the column-precise
selection bounds whose style passes the include/exclude check (`style_valid`,
modelled by the predicate `styleOk`). -/
def lexerTokens (styleOk : String → Bool) (tokenlist : List LexToken)
    (startL endL : Nat) (x1 x2 : Int) : List TokenRef :=
  tokenlist.filterMap (fun t =>
    if t.y1 = startL ∧ t.x1 < x1 then none
    else if t.y2 = endL ∧ x2 < t.x2 then none
    else if ¬ styleOk t.style then none
    else some ⟨t.x1, t.y1, t.x2, t.y2, t.str, t.style⟩)

/-- Lines 869-874 / 922-928: append one discovered token to the dictionary and
the line index in one pass.  The fresh heap cell's index is the token's id. -/
def scanAddToken (cs : Bool) (st : SyncState) (tok : TokenRef) : SyncState :=
  let tid := st.heap.length
  let key := normWord cs tok.text
  { st with
    heap := st.heap ++ [tok]
    dictionary := alistAppend st.dictionary key tid
    line_index := alistAppend st.line_index tok.start_y (tid, key) }

/-- "Step A: Build Dictionary AND Line Index" over a discovered token list
(shared shape of naive and lexer mode). -/
def buildIndex (cs : Bool) (toks : List TokenRef) : SyncState :=
  toks.foldl (scanAddToken cs) ⟨[], [], [], none⟩

/-- "Step B: Remove Singletons", loop body (lines 940-956): delete the key's
bucket and filter its tokens out of their lines' `line_index` entries
(identity comparison `ref is not token_ref`), dropping line entries that
become empty. -/
def pruneStep (st : SyncState) (key : List Char) : SyncState :=
  let singletonTokens := (alistGet? st.dictionary key).getD []
  let dict' := alistDel st.dictionary key
  let li' := removeTokensFromLines st.heap singletonTokens st.line_index
  { st with dictionary := dict', line_index := li' }

/-- "Step B: Remove Singletons" (lines 936-956): compute
`keys_to_remove = [k for k, v in dictionary.items() if len(v) < 2]` and run
`pruneStep` for each such key. -/
def pruneSingletons (s : SyncState) : SyncState :=
  let keysToRemove := (s.dictionary.filter (fun kv => kv.2.length < 2)).map Prod.fst
  keysToRemove.foldl pruneStep s

/-! ## Session start outcome (`Command.start_sync_edit`, lines 836-976) -/

/-- Result of the start command's scan phase.  `abortedNoWords` models the
lines 964-976 path: `self.reset(ed_self)` (which removes the session, i.e.
returns to the Inactive state), the status message, and
`restore_caret(caret, keep_selection=True)` which re-sets the caret to the
exact original 4-tuple `(x1, y1, x2, y2)` including its selection range. -/
inductive StartOutcome where
  | abortedNoWords (restoredCaret : Int × Int × Int × Int) (statusMsg : String)
  | started (st : SyncState)
deriving DecidableEq, Repr

/-- The scan phase of naive-mode `start_sync_edit`: coordinate correction
(lines 837-846, with Python's lexicographic tuple comparison and FIX #15 for a
selection ending at column 0 of a later line), the regex scan over the
selection, and singleton pruning.  `caret` is the single caret
`(x1, y1, x2, y2)` from `ed.get_carets()`; `startL, endL` are the selection
lines from `ed.get_sel_lines()`. -/
def startScanNaive (w : Char → Bool) (cs : Bool) (lines : List (List Char))
    (caret : Int × Int × Int × Int) (startL endL : Nat) : SyncState :=
  let (x1, y1, x2, y2) := caret
  -- Coordinate Correction: sort coords of caret (`(y1, x1) > (y2, x2)`)
  let (cx1, _cy1, cx2, cy2) :=
    if y2 < y1 ∨ (y2 = y1 ∧ x2 < x1) then (x2, y2, x1, y1) else (x1, y1, x2, y2)
  -- FIX #15: selection ending at the start of a line belongs to the previous line
  let cx2 := if cx2 = 0 ∧ cy2 > _cy1 then ((getLine lines (cy2 - 1).toNat).length : Int) else cx2
  pruneSingletons (buildIndex cs (naiveTokens w lines startL endL cx1 cx2))

/-- The naive-mode path of `start_sync_edit` up to the empty-dictionary
validation (lines 964-976): abort with the status message and the exact
original caret when the pruned dictionary is empty, otherwise the session
starts with the scanned index. -/
def start_sync_edit_naive (w : Char → Bool) (cs : Bool) (lines : List (List Char))
    (caret : Int × Int × Int × Int) (startL endL : Nat) : StartOutcome :=
  let st := startScanNaive w cs lines caret startL endL
  if st.dictionary = [] then
    .abortedNoWords caret "Sync Editing: No editable identifiers found in selection"
  else
    .started st

/-! ## The key handler (`Command.on_key`, lines 1936-1973) -/

/-- Key codes from `cudatext_keys` (standard virtual-key values). -/
def VK_ENTER : Nat := 13

/-- Esc key code. -/
def VK_ESCAPE : Nat := 27

/-- Up-arrow key code. -/
def VK_UP : Nat := 38

/-- Down-arrow key code. -/
def VK_DOWN : Nat := 40

/-- One editor's session as seen by the key handler: the `editing` mode flag
plus the index state. -/
structure EdSession where
  editing : Bool
  state : SyncState
deriving DecidableEq, Repr

/-- What the handler tells the host: `block` is Python's `return False` (the
keystroke is not applied by the editor, so carets do not move), `passThrough`
is falling through with `return`/`None`. -/
inductive KeyReply where
  | block
  | passThrough
deriving DecidableEq, Repr

/-- `Command.on_key`: Esc resets (removes the session and blocks the key);
while editing, Up/Down/Enter are blocked with a status message and no state
change; everything else falls through untouched. -/
def on_key (sess : Option EdSession) (key : Nat) :
    Option EdSession × KeyReply × Option String :=
  match sess with
  | none => (none, .passThrough, none)
  | some s =>
    if key = VK_ESCAPE then (none, .block, some "Sync Editing: Deactivated")
    else if ¬ s.editing then (some s, .passThrough, none)
    else if key = VK_UP ∨ key = VK_DOWN ∨ key = VK_ENTER then
      (some s, .block, some "Up/Down/Enter keys are not allowed inside Edit Mode")
    else (some s, .passThrough, none)

/-! ## Caret collapse on finishing an edit (`Command.finish_editing`,
lines 1246-1284) -/

/-- Fallible list indexing (`carets[i]` can raise `IndexError`). -/
def caretsGet (carets : List (Int × Int × Int × Int)) (i : Nat) :
    Option (Int × Int × Int × Int) :=
  carets.get? i

/-- The caret-collapse step: with a non-empty caret list and a recorded
occurrence index, pick `carets[idx]` when `idx < len(carets)`, else fall back
to `carets[0]`; the outer `Option` is `none` exactly when an `IndexError`
would be raised, the inner one is `none` when the guard
`if carets and session.original_occurrence_index is not None` skips the
collapse. -/
def finishCaretTarget (carets : List (Int × Int × Int × Int)) (origIdx : Option Nat) :
    Option (Option (Int × Int)) :=
  match carets, origIdx with
  | [], _ => some none
  | _ :: _, none => some none
  | c :: cs, some idx =>
      if idx < (c :: cs).length then
        match caretsGet (c :: cs) idx with
        | some cr => some (some (cr.1, cr.2.1))
        | none => none
      else
        match caretsGet (c :: cs) 0 with
        | some cr => some (some (cr.1, cr.2.1))
        | none => none

/-! ## The dictionary / line-index correspondence invariant (spec §3) -/

/-- The `(token id, word key)` memberships recorded by a dictionary list:
token `tid` listed in bucket `key` contributes the pair `(tid, key)`. -/
def dPairs (d : List (List Char × List Nat)) : List (Nat × List Char) :=
  d.flatMap (fun kv => kv.2.map (fun tid => (tid, kv.1)))

/-- The `(token id, word key)` entries recorded by a line-index list. -/
def lPairs (li : List (Nat × List (Nat × List Char))) : List (Nat × List Char) :=
  li.flatMap (fun ye => ye.2)

/-- All `(token id, word key)` memberships recorded by the dictionary. -/
def dictPairs (s : SyncState) : List (Nat × List Char) :=
  dPairs s.dictionary

/-- All `(token id, word key)` entries recorded by the line index. -/
def linePairs (s : SyncState) : List (Nat × List Char) :=
  lPairs s.line_index

/-- The ids of all tokens held by the session (referenced from the dictionary
or the line index). -/
def heldIds (s : SyncState) : List Nat :=
  (dictPairs s ++ linePairs s).map Prod.fst

/-- The spec's invariant, verbatim: every token held by the session appears in
exactly one dictionary bucket and in exactly one `line_index` entry, under the
same word key in both. -/
def tokenInv (s : SyncState) : Prop :=
  (∀ tid ∈ heldIds s,
    (dictPairs s).countP (fun p => decide (p.1 = tid)) = 1 ∧
    (linePairs s).countP (fun p => decide (p.1 = tid)) = 1) ∧
  (∀ p ∈ dictPairs s, ∀ q ∈ linePairs s, p.1 = q.1 → p.2 = q.2)

/-- Structural well-formedness: every line-index entry sits under its token's
own `start_y` line. -/
def lineAgrees (s : SyncState) : Prop :=
  ∀ ye ∈ s.line_index, ∀ e ∈ ye.2, (hGet s.heap e.1).start_y = ye.1

/-- The full index invariant: the dictionary's and the line index's
`(token, key)` records are the same multiset, token ids are not duplicated,
both maps have `dict`-like unique keys, and entries sit on their own lines.
It implies the spec's `tokenInv` (see `syncInv_tokenInv` inside the C2
theorem). -/
def syncInv (s : SyncState) : Prop :=
  (dictPairs s).Perm (linePairs s) ∧
  ((dictPairs s).map Prod.fst).Nodup ∧
  (s.dictionary.map Prod.fst).Nodup ∧
  (s.line_index.map Prod.fst).Nodup ∧
  lineAgrees s

instance : DecidablePred tokenInv := fun s => by
  unfold tokenInv; infer_instance

instance : DecidablePred syncInv := fun s => by
  unfold syncInv lineAgrees
  exact instDecidableAnd

/-! ## Concrete example data used by witnesses and counterexamples -/

/-- A concrete identifier character class (an instance of the configurable
`identifier_regex`): everything except the space. -/
def exW : Char → Bool := fun c => !(c = ' ')

/-- Tokens of the two-line buffer `ccc ddd` / `ddd ccc` in scan order. -/
def exHeap : List TokenRef :=
  [⟨0, 0, 3, 0, "ccc".toList, "id"⟩, ⟨4, 0, 7, 0, "ddd".toList, "id"⟩,
   ⟨0, 1, 3, 1, "ddd".toList, "id"⟩, ⟨4, 1, 7, 1, "ccc".toList, "id"⟩]

/-- Session state over `exHeap` while the word `ccc` is being edited:
groups `ccc -> {0, 3}` and `ddd -> {1, 2}`. -/
def exState : SyncState :=
  { heap := exHeap
    dictionary := [("ccc".toList, [0, 3]), ("ddd".toList, [1, 2])]
    line_index := [(0, [(0, "ccc".toList), (1, "ddd".toList)]),
                   (1, [(2, "ddd".toList), (3, "ccc".toList)])]
    our_key := some "ccc".toList }

/-- Tokens of the buffer `aa bb` / `aa bb` while the user has just retyped
both `aa` occurrences into `bb` (the buffer already reads `bb bb` / `bb bb`,
the tokens still record the old text `aa`). -/
def colHeap : List TokenRef :=
  [⟨0, 0, 2, 0, "aa".toList, "id"⟩, ⟨3, 0, 5, 0, "bb".toList, "id"⟩,
   ⟨0, 1, 2, 1, "aa".toList, "id"⟩, ⟨3, 1, 5, 1, "bb".toList, "id"⟩]

/-- Collision state: the edited group `aa -> {0, 2}` is about to be relabeled
to `bb`, which already has the pre-existing group `bb -> {1, 3}`. -/
def colState : SyncState :=
  { heap := colHeap
    dictionary := [("aa".toList, [0, 2]), ("bb".toList, [1, 3])]
    line_index := [(0, [(0, "aa".toList), (1, "bb".toList)]),
                   (1, [(2, "aa".toList), (3, "bb".toList)])]
    our_key := some "aa".toList }

/-- Three-line variant of `exState`: adds line 2 `eee eee` (tokens 4, 5), a
line containing no occurrence of the edited word `ccc`. -/
def exState3 : SyncState :=
  { heap := exHeap ++ [⟨0, 2, 3, 2, "eee".toList, "id"⟩, ⟨4, 2, 7, 2, "eee".toList, "id"⟩]
    dictionary := [("ccc".toList, [0, 3]), ("ddd".toList, [1, 2]), ("eee".toList, [4, 5])]
    line_index := [(0, [(0, "ccc".toList), (1, "ddd".toList)]),
                   (1, [(2, "ddd".toList), (3, "ccc".toList)]),
                   (2, [(4, "eee".toList), (5, "eee".toList)])]
    our_key := some "ccc".toList }

/-- State in which a prior edit emptied the tracked word `ccc` (tokens 0 and 3
have `text = ''` and zero length) and the user has just typed `zz`: the buffer
reads `zz ddd` / `ddd zz`. -/
def emptiedState : SyncState :=
  { heap := [⟨0, 0, 0, 0, [], "id"⟩, ⟨3, 0, 6, 0, "ddd".toList, "id"⟩,
             ⟨0, 1, 3, 1, "ddd".toList, "id"⟩, ⟨4, 1, 4, 1, [], "id"⟩]
    dictionary := [("ccc".toList, [0, 3]), ("ddd".toList, [1, 2])]
    line_index := [(0, [(0, "ccc".toList), (1, "ddd".toList)]),
                   (1, [(2, "ddd".toList), (3, "ccc".toList)])]
    our_key := some "ccc".toList }

/-- What C3 asserts of a freshly scanned index `st0`: after pruning, no
bucket with fewer than 2 tokens remains; every token of a pruned (fewer than
2 occurrences) bucket is gone from the line index; and no emptied line entry
survives. -/
def prunedIndexOK (st0 : SyncState) : Prop :=
  (∀ kv ∈ (pruneSingletons st0).dictionary, 2 ≤ kv.2.length) ∧
  (∀ k l, (k, l) ∈ st0.dictionary → l.length < 2 →
    ∀ tid ∈ l, ∀ ye ∈ (pruneSingletons st0).line_index, ∀ e ∈ ye.2, e.1 ≠ tid) ∧
  (∀ ye ∈ (pruneSingletons st0).line_index, ye.2 ≠ [])

/-! # Theorems -/

/-- C8: if the scan at session start yields zero eligible words (an empty
dictionary after singleton pruning), the start operation aborts back to the
Inactive state (the `abortedNoWords` outcome: `self.reset` removes the
session), reports the user-facing status message, and restores the original
caret `(x1, y1, x2, y2)` — including its selection range — exactly as it was
before the start command (`restore_caret(caret, keep_selection=True)` uses the
untouched original tuple, not the sorted working copy). -/
theorem start_abort_restores_caret (w : Char → Bool) (cs : Bool)
    (lines : List (List Char)) (caret : Int × Int × Int × Int) (startL endL : Nat)
    (h : (startScanNaive w cs lines caret startL endL).dictionary = []) :
    start_sync_edit_naive w cs lines caret startL endL =
      StartOutcome.abortedNoWords caret
        "Sync Editing: No editable identifiers found in selection" := by
  unfold start_sync_edit_naive
  simp only [h, if_pos]

/-- Witness for C8: a selection containing only one identifier occurring once
(`hello`) aborts with the original caret (with its selection `0..5`) intact. -/
theorem start_abort_restores_caret_witness :
    (startScanNaive (fun c => !(c = ' ')) true ["hello".toList] (0, 0, 5, 0) 0 0).dictionary
        = [] ∧
    start_sync_edit_naive (fun c => !(c = ' ')) true ["hello".toList] (0, 0, 5, 0) 0 0 =
      StartOutcome.abortedNoWords (0, 0, 5, 0)
        "Sync Editing: No editable identifiers found in selection" :=
  ⟨by decide,
   start_abort_restores_caret (fun c => !(c = ' ')) true ["hello".toList]
     (0, 0, 5, 0) 0 0 (by decide)⟩

/-- C9: while a session is in Editing mode, Up/Down/Enter are rejected — the
handler returns `False` (`KeyReply.block`, so the host does not apply the
keystroke and the carets do not move), emits a status message, and leaves the
session (dictionary, line index, heap) untouched; any key other than these
three and Escape falls through unchanged. -/
theorem on_key_blocks_nav_keys (s : EdSession) (key : Nat) (hed : s.editing = true) :
    ((key = VK_UP ∨ key = VK_DOWN ∨ key = VK_ENTER) →
      on_key (some s) key =
        (some s, KeyReply.block,
          some "Up/Down/Enter keys are not allowed inside Edit Mode")) ∧
    (key ≠ VK_UP → key ≠ VK_DOWN → key ≠ VK_ENTER → key ≠ VK_ESCAPE →
      on_key (some s) key = (some s, KeyReply.passThrough, none)) := by
  constructor
  · intro hk
    have hkey : ¬ key = VK_ESCAPE := by
      rcases hk with h | h | h <;> subst h <;> decide
    simp [on_key, hkey, hed, hk]
  · intro h1 h2 h3 h4
    have hk : ¬ (key = VK_UP ∨ key = VK_DOWN ∨ key = VK_ENTER) := by
      simp [h1, h2, h3]
    simp [on_key, h1, h2, h3, h4, hed, hk]

/-- Witness for C9: Up is blocked with the message, and an ordinary key (65,
letter A) passes through, both leaving the session unchanged. -/
theorem on_key_blocks_nav_keys_witness :
    on_key (some ⟨true, ⟨[], [], [], none⟩⟩) VK_UP =
      (some ⟨true, ⟨[], [], [], none⟩⟩, KeyReply.block,
        some "Up/Down/Enter keys are not allowed inside Edit Mode") ∧
    on_key (some ⟨true, ⟨[], [], [], none⟩⟩) 65 =
      (some ⟨true, ⟨[], [], [], none⟩⟩, KeyReply.passThrough, none) :=
  ⟨(on_key_blocks_nav_keys ⟨true, ⟨[], [], [], none⟩⟩ VK_UP rfl).1 (Or.inl rfl),
   (on_key_blocks_nav_keys ⟨true, ⟨[], [], [], none⟩⟩ 65 rfl).2
     (by decide) (by decide) (by decide) (by decide)⟩

/-- C10: the caret-collapse step of `finish_editing` never raises an
`IndexError` (the result is never the error value `none`, for every caret list
and every recorded occurrence index), and whenever the recorded index is not
smaller than the number of carets the single caret is placed at the first
caret's position. -/
theorem finish_editing_caret_safe :
    (∀ (carets : List (Int × Int × Int × Int)) (origIdx : Option Nat),
      finishCaretTarget carets origIdx ≠ none) ∧
    (∀ (c : Int × Int × Int × Int) (cs : List (Int × Int × Int × Int)) (idx : Nat),
      (c :: cs).length ≤ idx →
      finishCaretTarget (c :: cs) (some idx) = some (some (c.1, c.2.1))) := by
  constructor
  · intro carets origIdx
    match carets, origIdx with
    | [], _ => simp [finishCaretTarget]
    | c :: cs, none => simp [finishCaretTarget]
    | c :: cs, some idx =>
      by_cases h : idx < (c :: cs).length
      · have h' : idx < cs.length + 1 := by simpa using h
        rcases hv : caretsGet (c :: cs) idx with _ | v
        · exact absurd (List.get?_eq_none.mp hv) (Nat.not_le.mpr h)
        · simp [finishCaretTarget, h', hv]
      · have h' : ¬ idx < cs.length + 1 := by simpa using h
        simp [finishCaretTarget, h', caretsGet]
  · intro c cs idx h
    have h' : ¬ idx < cs.length + 1 := by simpa using Nat.not_lt.mpr h
    simp [finishCaretTarget, h', caretsGet]

/-- Witness for C10: two carets with recorded index 5 (out of bounds) land on
the first caret, with no error. -/
theorem finish_editing_caret_safe_witness :
    finishCaretTarget [(1, 2, -1, -1), (5, 7, -1, -1)] (some 5) ≠ none ∧
    finishCaretTarget [(1, 2, -1, -1), (5, 7, -1, -1)] (some 5) = some (some (1, 2)) :=
  ⟨finish_editing_caret_safe.1 [(1, 2, -1, -1), (5, 7, -1, -1)] (some 5),
   finish_editing_caret_safe.2 (1, 2, -1, -1) [(5, 7, -1, -1)] 5 (by decide)⟩

/-- C4: if `redraw` runs while editing a word and finds `delta == 0` and the
word string unchanged (the caret merely moved without edits), the session
state is returned exactly as it was: no `TokenRef` field, no dictionary
bucket, no `line_index` entry changes, and the tracked word key `our_key` —
temporarily unset at entry — is restored to its value before the call. -/
theorem redraw_noop (w : Char → Bool) (cs : Bool) (lines : List (List Char))
    (fx fy : Nat) (rest : List (Nat × Nat)) (s : SyncState)
    (oldKey : List Char) (t0 : Nat) (ts : List Nat)
    (h1 : s.our_key = some oldKey)
    (h4 : alistGet? s.dictionary oldKey = some (t0 :: ts))
    (h3 : newWordAt w cs (getLine lines fy) fx = oldKey)
    (h5 : (hGet s.heap t0).text.length = oldKey.length) :
    redraw w cs lines ((fx, fy) :: rest) s = s := by
  unfold redraw
  rw [h1]
  simp only [h3, h4, Option.getD_some, h5]
  rw [if_pos ⟨by ring, trivial⟩]
  cases s with
  | mk heap dict li ourkey => simp_all

/-- Witness for C4: a caret sitting inside the first `ccc` with the buffer
unchanged leaves the session state identical. -/
theorem redraw_noop_witness :
    redraw exW true ["ccc ddd".toList, "ddd ccc".toList] [(1, 0)] exState = exState :=
  redraw_noop exW true ["ccc ddd".toList, "ddd ccc".toList] 1 0 [] exState
    "ccc".toList 0 [3] (by decide) (by decide) (by decide) (by decide)

/-! ## Association-list and line-index fold lemmas (helpers) -/
section AList
variable {α : Type} {β : Type} {γ : Type} [DecidableEq α]

theorem alistGet?_cons (kv : α × β) (rest : List (α × β)) (k : α) :
    alistGet? (kv :: rest) k = if kv.1 = k then some kv.2 else alistGet? rest k := rfl

theorem alistSet_cons (kv : α × β) (rest : List (α × β)) (k : α) (v : β) :
    alistSet (kv :: rest) k v =
      if kv.1 = k then (k, v) :: rest else kv :: alistSet rest k v := rfl

theorem alistDel_cons (kv : α × β) (rest : List (α × β)) (k : α) :
    alistDel (kv :: rest) k =
      if kv.1 = k then alistDel rest k else kv :: alistDel rest k := by
  unfold alistDel
  rw [List.filter_cons]
  by_cases h : kv.1 = k <;> simp [h]

theorem alistGet?_eq_none_iff {l : List (α × β)} {k : α} :
    alistGet? l k = none ↔ k ∉ l.map Prod.fst := by
  induction l with
  | nil => simp [alistGet?]
  | cons kv rest ih =>
    rw [alistGet?_cons]
    by_cases h : kv.1 = k
    · simp [h]
    · simp only [if_neg h, ih, List.map_cons, List.mem_cons]
      constructor
      · intro hn hor
        rcases hor with h1 | h2
        · exact h h1.symm
        · exact hn h2
      · exact fun hn hm => hn (Or.inr hm)

theorem alistDel_of_not_mem {l : List (α × β)} {k : α} (h : k ∉ l.map Prod.fst) :
    alistDel l k = l := by
  induction l with
  | nil => rfl
  | cons kv rest ih =>
    simp only [List.map_cons, List.mem_cons, not_or] at h
    rw [alistDel_cons, if_neg (fun hh => h.1 hh.symm), ih h.2]

theorem alistGet?_del_self (l : List (α × β)) (k : α) :
    alistGet? (alistDel l k) k = none := by
  induction l with
  | nil => rfl
  | cons kv rest ih =>
    rw [alistDel_cons]
    by_cases h : kv.1 = k
    · rw [if_pos h]; exact ih
    · rw [if_neg h, alistGet?_cons, if_neg h]; exact ih

theorem alistGet?_del_ne (l : List (α × β)) {k k' : α} (h : k' ≠ k) :
    alistGet? (alistDel l k) k' = alistGet? l k' := by
  induction l with
  | nil => rfl
  | cons kv rest ih =>
    rw [alistDel_cons, alistGet?_cons]
    by_cases hk : kv.1 = k
    · rw [if_pos hk, if_neg (fun hh : kv.1 = k' => h (hh ▸ hk ▸ rfl))]
      exact ih
    · rw [if_neg hk]
      simp only [alistGet?_cons]
      by_cases hk' : kv.1 = k'
      · rw [if_pos hk', if_pos hk']
      · rw [if_neg hk', if_neg hk']; exact ih

theorem alistGet?_set_self (l : List (α × β)) (k : α) (v : β) :
    alistGet? (alistSet l k v) k = some v := by
  induction l with
  | nil => simp [alistSet, alistGet?]
  | cons kv rest ih =>
    rw [alistSet_cons]
    by_cases h : kv.1 = k
    · rw [if_pos h, alistGet?_cons, if_pos rfl]
    · rw [if_neg h, alistGet?_cons, if_neg h]; exact ih

theorem alistGet?_set_ne (l : List (α × β)) {k k' : α} (v : β) (h : k' ≠ k) :
    alistGet? (alistSet l k v) k' = alistGet? l k' := by
  induction l with
  | nil =>
    simp only [alistSet, alistGet?_cons, alistGet?]
    rw [if_neg (fun hh : k = k' => h hh.symm)]
  | cons kv rest ih =>
    rw [alistSet_cons]
    by_cases hk : kv.1 = k
    · rw [if_pos hk, alistGet?_cons, alistGet?_cons,
        if_neg (fun hh : k = k' => h hh.symm), if_neg (fun hh : kv.1 = k' => h (hh ▸ hk ▸ rfl))]
    · rw [if_neg hk]
      simp only [alistGet?_cons]
      by_cases hk' : kv.1 = k'
      · rw [if_pos hk', if_pos hk']
      · rw [if_neg hk', if_neg hk']; exact ih

theorem alistSet_of_not_mem {l : List (α × β)} {k : α} (v : β)
    (h : k ∉ l.map Prod.fst) : alistSet l k v = l ++ [(k, v)] := by
  induction l with
  | nil => rfl
  | cons kv rest ih =>
    simp only [List.map_cons, List.mem_cons, not_or] at h
    rw [alistSet_cons, if_neg (fun hh => h.1 hh.symm), ih h.2, List.cons_append]

theorem alistGet?_mem {l : List (α × β)} {k : α} {v : β}
    (h : alistGet? l k = some v) : (k, v) ∈ l := by
  induction l with
  | nil => simp [alistGet?] at h
  | cons kv rest ih =>
    rw [alistGet?_cons] at h
    by_cases hk : kv.1 = k
    · rw [if_pos hk] at h
      injection h with h'
      have : (k, v) = kv := by
        obtain ⟨a, b⟩ := kv
        simp only at hk h'
        rw [hk, h']
      rw [this]
      exact List.mem_cons_self _ _
    · rw [if_neg hk] at h
      exact List.mem_cons_of_mem _ (ih h)

theorem alistGet?_mem_keys {l : List (α × β)} {k : α} {v : β}
    (h : alistGet? l k = some v) : k ∈ l.map Prod.fst := by
  simpa using List.mem_map_of_mem Prod.fst (alistGet?_mem h)

/-- Rewriting one bucket leaves the key list unchanged. -/
theorem keys_map_setf (l : List (α × β)) (a : α) (f : β → β) :
    (l.map (fun p => if p.1 = a then (p.1, f p.2) else p)).map Prod.fst =
      l.map Prod.fst := by
  rw [List.map_map]
  apply List.map_congr_left
  intro p _
  by_cases h : p.1 = a <;> simp [h]

theorem map_setf_of_not_mem {l : List (α × β)} {a : α} (f : β → β)
    (h : a ∉ l.map Prod.fst) :
    l.map (fun p => if p.1 = a then (p.1, f p.2) else p) = l := by
  conv_rhs => rw [← List.map_id l]
  apply List.map_congr_left
  intro p hp
  have : ¬ p.1 = a := fun hh => h (hh ▸ List.mem_map_of_mem Prod.fst hp)
  simp [this]

/-- Setting a present key `a` to `f` of its value is the pointwise-map update
(unique keys). -/
theorem alistSet_get_eq_map {l : List (α × β)} (hk : (l.map Prod.fst).Nodup)
    {a : α} {v : β} (hg : alistGet? l a = some v) (f : β → β) :
    alistSet l a (f v) = l.map (fun p => if p.1 = a then (p.1, f p.2) else p) := by
  induction l with
  | nil => simp [alistGet?] at hg
  | cons kv rest ih =>
    simp only [List.map_cons, List.nodup_cons] at hk
    rw [alistGet?_cons] at hg
    rw [alistSet_cons, List.map_cons]
    by_cases h : kv.1 = a
    · rw [if_pos h] at hg ⊢
      injection hg with hg'
      have hna : a ∉ rest.map Prod.fst := h ▸ hk.1
      rw [map_setf_of_not_mem f hna, if_pos h, ← h, ← hg']
    · rw [if_neg h] at hg ⊢
      rw [if_neg h, ih hk.2 hg]
end AList


/-- `filterMap` with a key-preserving function shrinks the key list. -/
theorem keys_filterMap_sublist {α : Type} {γ : Type} (g : (α × List γ) → Option (α × List γ))
    (hg : ∀ q q', g q = some q' → q'.1 = q.1) (l : List (α × List γ)) :
    ((l.filterMap g).map Prod.fst).Sublist (l.map Prod.fst) := by
  induction l with
  | nil => simp
  | cons q rest ih =>
    rw [List.filterMap_cons]
    rcases hq : g q with _ | q'
    · exact ih.cons q.1
    · rw [List.map_cons, List.map_cons, hg q q' hq]
      exact ih.cons₂ q.1

section AList2
variable {α : Type} {γ : Type} [DecidableEq α] [DecidableEq γ]

/-- The `if entries' == []: del else set` step of the line-removal loops, as a
`filterMap`, for unique keys. -/
theorem alist_filterdel_eq_filterMap {l : List (α × List γ)}
    (hk : (l.map Prod.fst).Nodup) {a : α} {es : List γ}
    (hg : alistGet? l a = some es) (p : γ → Bool) :
    (if es.filter p = [] then alistDel l a else alistSet l a (es.filter p)) =
    l.filterMap (fun q =>
      if q.1 = a then
        (if q.2.filter p = [] then none else some (q.1, q.2.filter p))
      else some q) := by
  induction l with
  | nil => simp [alistGet?] at hg
  | cons kv rest ih =>
    simp only [List.map_cons, List.nodup_cons] at hk
    rw [alistGet?_cons] at hg
    rw [List.filterMap_cons]
    by_cases h : kv.1 = a
    · rw [if_pos h] at hg
      injection hg with hg'
      subst hg'
      have hna : a ∉ rest.map Prod.fst := h ▸ hk.1
      have hrest : rest.filterMap (fun q =>
          if q.1 = a then
            (if q.2.filter p = [] then none else some (q.1, q.2.filter p))
          else some q) = rest := by
        rw [List.filterMap_congr (g := some), List.filterMap_some]
        intro q hq
        have : ¬ q.1 = a := fun hh => hna (hh ▸ List.mem_map_of_mem Prod.fst hq)
        rw [if_neg this]
      by_cases hf : kv.2.filter p = []
      · rw [if_pos hf, if_pos h, if_pos hf, alistDel_cons, if_pos h,
          alistDel_of_not_mem hna, hrest]
      · rw [if_neg hf, if_pos h, if_neg hf, alistSet_cons, if_pos h, hrest]
        obtain ⟨b, c⟩ := kv
        simp only at h ⊢
        rw [h]
    · rw [if_neg h] at hg
      have hih := ih hk.2 hg
      rw [if_neg h]
      by_cases hf : es.filter p = []
      · rw [if_pos hf] at hih ⊢
        rw [alistDel_cons, if_neg h, hih]
      · rw [if_neg hf] at hih ⊢
        rw [alistSet_cons, if_neg h, hih]

end AList2


theorem relabelLines_cons (oldKey newKey : List Char) (a : Nat) (A : List Nat)
    (li : List (Nat × List (Nat × List Char))) :
    relabelLines oldKey newKey (a :: A) li =
      relabelLines oldKey newKey A
        (match alistGet? li a with
         | none => li
         | some entries =>
             alistSet li a
               (entries.map (fun e => (e.1, if e.2 = oldKey then newKey else e.2)))) := rfl

theorem relabelLines_eq (oldKey newKey : List Char) :
    ∀ (A : List Nat), A.Nodup →
    ∀ li : List (Nat × List (Nat × List Char)), (li.map Prod.fst).Nodup →
    relabelLines oldKey newKey A li =
      li.map (fun q =>
        if q.1 ∈ A then
          (q.1, q.2.map (fun e => (e.1, if e.2 = oldKey then newKey else e.2)))
        else q) := by
  intro A
  induction A with
  | nil =>
    intro _ li _
    unfold relabelLines
    simp
  | cons a A ih =>
    intro hA li hk
    obtain ⟨ha, hA'⟩ := List.nodup_cons.mp hA
    rw [relabelLines_cons]
    rcases hg : alistGet? li a with _ | entries
    · simp only [hg]
      rw [ih hA' li hk]
      apply List.map_congr_left
      intro q hq
      have hqa : ¬ q.1 = a := fun hh =>
        (alistGet?_eq_none_iff.mp hg) (hh ▸ List.mem_map_of_mem Prod.fst hq)
      by_cases hqA : q.1 ∈ A <;> simp [hqa, hqA]
    · simp only [hg]
      rw [alistSet_get_eq_map hk hg
        (f := fun es => es.map (fun e => (e.1, if e.2 = oldKey then newKey else e.2)))]
      rw [ih hA' _ (by rw [keys_map_setf]; exact hk), List.map_map]
      apply List.map_congr_left
      intro q hq
      by_cases hqa : q.1 = a
      · simp [hqa, ha]
      · by_cases hqA : q.1 ∈ A <;> simp [hqa, hqA]

theorem removeWordFromLines_cons (wordKey : List Char) (a : Nat) (A : List Nat)
    (li : List (Nat × List (Nat × List Char))) :
    removeWordFromLines wordKey (a :: A) li =
      removeWordFromLines wordKey A
        (match alistGet? li a with
         | none => li
         | some entries =>
             let entries' := entries.filter (fun e => decide (e.2 ≠ wordKey))
             if entries' = [] then alistDel li a else alistSet li a entries') := rfl

theorem removeWordFromLines_eq (wordKey : List Char) :
    ∀ (A : List Nat), A.Nodup →
    ∀ li : List (Nat × List (Nat × List Char)), (li.map Prod.fst).Nodup →
    removeWordFromLines wordKey A li =
      li.filterMap (fun q =>
        if q.1 ∈ A then
          (if q.2.filter (fun e => decide (e.2 ≠ wordKey)) = [] then none
           else some (q.1, q.2.filter (fun e => decide (e.2 ≠ wordKey))))
        else some q) := by
  intro A
  induction A with
  | nil =>
    intro _ li _
    unfold removeWordFromLines
    simp only [List.foldl_nil, List.not_mem_nil, if_false, List.filterMap_some]
  | cons a A ih =>
    intro hA li hk
    obtain ⟨ha, hA'⟩ := List.nodup_cons.mp hA
    rw [removeWordFromLines_cons]
    rcases hg : alistGet? li a with _ | entries
    · simp only [hg]
      rw [ih hA' li hk]
      apply List.filterMap_congr
      intro q hq
      have hqa : ¬ q.1 = a := fun hh =>
        (alistGet?_eq_none_iff.mp hg) (hh ▸ List.mem_map_of_mem Prod.fst hq)
      by_cases hqA : q.1 ∈ A <;> simp [hqa, hqA]
    · simp only [hg]
      rw [alist_filterdel_eq_filterMap hk hg (fun e => decide (e.2 ≠ wordKey))]
      have hkeys : ((li.filterMap (fun q =>
          if q.1 = a then
            (if q.2.filter (fun e => decide (e.2 ≠ wordKey)) = [] then none
             else some (q.1, q.2.filter (fun e => decide (e.2 ≠ wordKey))))
          else some q)).map Prod.fst).Nodup := by
        refine (keys_filterMap_sublist _ ?_ li).nodup hk
        intro q q' hq
        by_cases hqa : q.1 = a
        · rw [if_pos hqa] at hq
          by_cases hf : q.2.filter (fun e => decide (e.2 ≠ wordKey)) = []
          · rw [if_pos hf] at hq; cases hq
          · rw [if_neg hf] at hq; injection hq with hq'; rw [← hq']
        · rw [if_neg hqa] at hq; injection hq with hq'; rw [← hq']
      rw [ih hA' _ hkeys, List.filterMap_filterMap]
      apply List.filterMap_congr
      intro q hq
      by_cases hqa : q.1 = a
      · have hin : q.1 ∈ a :: A := by simp [hqa]
        have hnA : ¬ q.1 ∈ A := fun hh => ha (hqa ▸ hh)
        rw [if_pos hqa, if_pos hin]
        by_cases hf : q.2.filter (fun e => decide (e.2 ≠ wordKey)) = []
        · rw [if_pos hf, Option.none_bind]
        · rw [if_neg hf, Option.some_bind]
          exact if_neg hnA
      · have hq1 : q.1 ∈ a :: A ↔ q.1 ∈ A := by simp [hqa]
        rw [if_neg hqa, Option.some_bind]
        by_cases hqA : q.1 ∈ A
        · rw [if_pos hqA, if_pos (hq1.mpr hqA)]
        · rw [if_neg hqA, if_neg (fun hh => hqA (hq1.mp hh))]

/-- C7: when the edited word's text changes to a different non-empty string,
`redraw` moves the token list to the dictionary bucket of the new key — after
the move `dictionary[new_key]` holds *exactly* the edited group's tokens (a
coincidentally-identical pre-existing bucket is overwritten, never merged) —
deletes the old bucket, tracks the new key, and relabels the affected
`line_index` entries from the old key to the new one. -/
theorem redraw_relabel_no_merge (w : Char → Bool) (cs : Bool)
    (lines : List (List Char)) (fx fy : Nat) (rest : List (Nat × Nat)) (s : SyncState)
    (oldKey newKey : List Char) (t0 : Nat) (ts : List Nat)
    (h1 : s.our_key = some oldKey)
    (h4 : alistGet? s.dictionary oldKey = some (t0 :: ts))
    (hnew : newWordAt w cs (getLine lines fy) fx = newKey)
    (hne : newKey ≠ [])
    (hne2 : oldKey ≠ newKey)
    (hlk : (s.line_index.map Prod.fst).Nodup) :
    alistGet? (redraw w cs lines ((fx, fy) :: rest) s).dictionary newKey = some (t0 :: ts) ∧
    alistGet? (redraw w cs lines ((fx, fy) :: rest) s).dictionary oldKey = none ∧
    (redraw w cs lines ((fx, fy) :: rest) s).our_key = some newKey ∧
    (redraw w cs lines ((fx, fy) :: rest) s).line_index =
      s.line_index.map (fun q =>
        if q.1 ∈ ((t0 :: ts).map (fun tid => (hGet s.heap tid).start_y)).dedup then
          (q.1, q.2.map (fun e => (e.1, if e.2 = oldKey then newKey else e.2)))
        else q) := by
  unfold redraw
  rw [h1]
  simp only [hnew, h4, Option.getD_some]
  rw [if_neg (fun hc => hne2 hc.2)]
  rw [if_pos ⟨hne, hne2⟩]
  refine ⟨?_, ?_, rfl, ?_⟩
  · rw [alistGet?_del_ne _ (fun hh => hne2 hh.symm), alistGet?_set_self]
  · exact alistGet?_del_self _ _
  · exact relabelLines_eq oldKey newKey _ (List.nodup_dedup _) s.line_index hlk

/-- Witness for C7: the `aa` group `{0, 2}` is renamed to `bb` while a
pre-existing `bb` group `{1, 3}` exists; the resulting `bb` bucket holds
exactly `{0, 2}` — the pre-existing group's tokens are not merged in — and
the `aa` bucket is gone. -/
theorem redraw_relabel_no_merge_witness :
    alistGet? (redraw exW true ["bb bb".toList, "bb bb".toList] [(1, 0)] colState).dictionary
      "bb".toList = some [0, 2] ∧
    alistGet? (redraw exW true ["bb bb".toList, "bb bb".toList] [(1, 0)] colState).dictionary
      "aa".toList = none :=
  ⟨(redraw_relabel_no_merge exW true ["bb bb".toList, "bb bb".toList] 1 0 [] colState
      "aa".toList "bb".toList 0 [2] (by decide) (by decide) (by decide) (by decide)
      (by decide) (by decide)).1,
   (redraw_relabel_no_merge exW true ["bb bb".toList, "bb bb".toList] 1 0 [] colState
      "aa".toList "bb".toList 0 [2] (by decide) (by decide) (by decide) (by decide)
      (by decide) (by decide)).2.1⟩

/-! ## Heap-update lemmas for the `redraw` occurrence loop (helpers) -/
theorem hGet_set_self (h : List TokenRef) (i : Nat) (t : TokenRef) (hi : i < h.length) :
    hGet (h.set i t) i = t := by
  unfold hGet
  rw [List.getD_eq_getElem?_getD, List.getElem?_set_self (by simpa using hi)]
  rfl

theorem hGet_set_ne (h : List TokenRef) {i j : Nat} (t : TokenRef) (hij : i ≠ j) :
    hGet (h.set i t) j = hGet h j := by
  unfold hGet
  rw [List.getD_eq_getElem?_getD, List.getElem?_set_ne hij, ← List.getD_eq_getElem?_getD]

theorem hGet_set_oob (h : List TokenRef) {i : Nat} (t : TokenRef) (hi : ¬ i < h.length) :
    h.set i t = h :=
  List.set_eq_of_length_le (Nat.le_of_not_lt hi)

theorem length_shiftOthers (tid : Nat) (oldX : Int) (oldLen : Nat) (delta : Int)
    (entries : List (Nat × List Char)) (heap : List TokenRef) :
    (shiftOthers tid oldX oldLen delta entries heap).length = heap.length := by
  unfold shiftOthers
  induction entries generalizing heap with
  | nil => rfl
  | cons e rest ih =>
    rw [List.foldl_cons]
    rw [ih]
    by_cases h1 : e.1 = tid
    · rw [if_pos h1]
    · rw [if_neg h1]
      by_cases h2 : oldX + (oldLen : Int) ≤ (hGet heap e.1).start_x
      · rw [if_pos h2, List.length_set]
      · rw [if_neg h2]

theorem length_processOne (w : Char → Bool) (lines : List (List Char)) (newKey : List Char)
    (delta : Int) (oldLen : Nat) (li : List (Nat × List (Nat × List Char)))
    (heap : List TokenRef) (tid : Nat) :
    (processOne w lines newKey delta oldLen li heap tid).length = heap.length := by
  unfold processOne
  by_cases hd : delta ≠ 0
  · rw [if_pos hd]
    rcases hg : alistGet? li (hGet heap tid).start_y with _ | entries
    · by_cases hk : newKey.length = 0 <;>
        simp [hk, hg, List.length_set]
    · by_cases hk : newKey.length = 0 <;>
        simp [hk, hg, length_shiftOthers, List.length_set]
  · rw [if_neg hd]
    by_cases hk : newKey.length = 0 <;> simp [hk, List.length_set]

theorem shiftOthers_cons (tid : Nat) (oldX : Int) (oldLen : Nat) (delta : Int)
    (e : Nat × List Char) (rest : List (Nat × List Char)) (heap : List TokenRef) :
    shiftOthers tid oldX oldLen delta (e :: rest) heap =
      shiftOthers tid oldX oldLen delta rest
        (if e.1 = tid then heap
         else if oldX + (oldLen : Int) ≤ (hGet heap e.1).start_x
              then heap.set e.1 ((hGet heap e.1).shift delta) else heap) := rfl

theorem shiftOthers_frame (tid : Nat) (oldX : Int) (oldLen : Nat) (delta : Int) :
    ∀ (entries : List (Nat × List Char)) (heap : List TokenRef) (oid : Nat),
    oid ∉ entries.map Prod.fst →
    hGet (shiftOthers tid oldX oldLen delta entries heap) oid = hGet heap oid := by
  intro entries
  induction entries with
  | nil => intro heap oid _; rfl
  | cons e rest ih =>
    intro heap oid hmem
    simp only [List.map_cons, List.mem_cons, not_or] at hmem
    rw [shiftOthers_cons]
    rw [ih _ oid hmem.2]
    by_cases h1 : e.1 = tid
    · rw [if_pos h1]
    · rw [if_neg h1]
      by_cases h2 : oldX + (oldLen : Int) ≤ (hGet heap e.1).start_x
      · rw [if_pos h2, hGet_set_ne _ _ (fun hh => hmem.1 hh.symm)]
      · rw [if_neg h2]

theorem hGet_shiftOthers_self (tid : Nat) (oldX : Int) (oldLen : Nat) (delta : Int) :
    ∀ (entries : List (Nat × List Char)) (heap : List TokenRef),
    hGet (shiftOthers tid oldX oldLen delta entries heap) tid = hGet heap tid := by
  intro entries
  induction entries with
  | nil => intro heap; rfl
  | cons e rest ih =>
    intro heap
    rw [shiftOthers_cons, ih]
    by_cases h1 : e.1 = tid
    · rw [if_pos h1]
    · rw [if_neg h1]
      by_cases h2 : oldX + (oldLen : Int) ≤ (hGet heap e.1).start_x
      · rw [if_pos h2, hGet_set_ne _ _ h1]
      · rw [if_neg h2]

theorem shiftOthers_preserves (tid : Nat) (oldX : Int) (oldLen : Nat) (delta : Int)
    (P : TokenRef → Prop) (hP : ∀ t, P t → P (t.shift delta)) :
    ∀ (entries : List (Nat × List Char)) (heap : List TokenRef) (oid : Nat),
    P (hGet heap oid) →
    P (hGet (shiftOthers tid oldX oldLen delta entries heap) oid) := by
  intro entries
  induction entries with
  | nil => intro heap oid h; exact h
  | cons e rest ih =>
    intro heap oid h
    rw [shiftOthers_cons]
    apply ih
    by_cases h1 : e.1 = tid
    · rw [if_pos h1]; exact h
    · rw [if_neg h1]
      by_cases h2 : oldX + (oldLen : Int) ≤ (hGet heap e.1).start_x
      · rw [if_pos h2]
        by_cases he : e.1 = oid
        · subst he
          by_cases hlt : e.1 < heap.length
          · rw [hGet_set_self _ _ _ hlt]; exact hP _ h
          · rw [hGet_set_oob _ _ hlt]; exact h
        · rw [hGet_set_ne _ _ he]; exact h
      · rw [if_neg h2]; exact h

/-- A single pass of the per-occurrence update preserves any token property
that is stable under `shift`, at every id other than the processed one. -/
theorem processOne_preserves (w : Char → Bool) (lines : List (List Char))
    (newKey : List Char) (delta : Int) (oldLen : Nat)
    (li : List (Nat × List (Nat × List Char))) (heap : List TokenRef) (tid : Nat)
    (P : TokenRef → Prop) (hP : ∀ t, P t → P (t.shift delta))
    (oid : Nat) (hne : oid ≠ tid) (h : P (hGet heap oid)) :
    P (hGet (processOne w lines newKey delta oldLen li heap tid) oid) := by
  unfold processOne
  have hset : ∀ t, P (hGet (heap.set tid t) oid) := by
    intro t
    rw [hGet_set_ne _ _ (fun hh => hne hh.symm)]
    exact h
  by_cases hd : delta ≠ 0
  · rw [if_pos hd]
    rcases hg : alistGet? li (hGet heap tid).start_y with _ | entries
    · by_cases hk : newKey.length = 0 <;> simp only [hk, if_pos, if_neg, hg] <;>
        exact hset _
    · by_cases hk : newKey.length = 0
      · simp only [hg, if_pos hk]
        exact shiftOthers_preserves tid _ _ delta P hP entries _ oid (hset _)
      · simp only [hg, if_neg hk]
        exact shiftOthers_preserves tid _ _ delta P hP entries _ oid (hset _)
  · rw [if_neg hd]
    by_cases hk : newKey.length = 0
    · rw [if_pos hk]; exact hset _
    · rw [if_neg hk]; exact hset _

/-- The per-occurrence loop never changes a token's line. -/
theorem processOne_start_y (w : Char → Bool) (lines : List (List Char))
    (newKey : List Char) (delta : Int) (oldLen : Nat)
    (li : List (Nat × List (Nat × List Char))) (heap : List TokenRef) (tid : Nat)
    (oid : Nat) :
    (hGet (processOne w lines newKey delta oldLen li heap tid) oid).start_y =
      (hGet heap oid).start_y := by
  by_cases hne : oid = tid
  · subst hne
    unfold processOne
    have hown : ∀ t, t.start_y = (hGet heap oid).start_y →
        (hGet (heap.set oid t) oid).start_y = (hGet heap oid).start_y := by
      intro t ht
      by_cases hlt : oid < heap.length
      · rw [hGet_set_self _ _ _ hlt]; exact ht
      · rw [hGet_set_oob _ _ hlt]
    by_cases hd : delta ≠ 0
    · rw [if_pos hd]
      rcases hg : alistGet? li (hGet heap oid).start_y with _ | entries
      · by_cases hk : newKey.length = 0 <;> simp only [hk, if_pos, if_neg, hg] <;>
          exact hown _ rfl
      · by_cases hk : newKey.length = 0 <;> simp only [hk, if_pos, if_neg, hg] <;>
          · rw [hGet_shiftOthers_self]
            exact hown _ rfl
    · rw [if_neg hd]
      by_cases hk : newKey.length = 0 <;> simp only [hk, if_pos, if_neg] <;>
        exact hown _ rfl
  · exact processOne_preserves w lines newKey delta oldLen li heap tid
      (fun t => t.start_y = (hGet heap oid).start_y) (fun t ht => ht) oid hne rfl

/-- The full update loop of `redraw` never changes any token's line. -/
theorem foldProcess_start_y (w : Char → Bool) (lines : List (List Char))
    (newKey : List Char) (delta : Int) (oldLen : Nat)
    (li : List (Nat × List (Nat × List Char))) :
    ∀ (tids : List Nat) (heap : List TokenRef) (oid : Nat),
    (hGet (tids.foldl (processOne w lines newKey delta oldLen li) heap) oid).start_y =
      (hGet heap oid).start_y := by
  intro tids
  induction tids with
  | nil => intro heap oid; rfl
  | cons t rest ih =>
    intro heap oid
    rw [List.foldl_cons, ih, processOne_start_y]

/-- The full update loop of `redraw` preserves the heap length. -/
theorem length_foldProcess (w : Char → Bool) (lines : List (List Char))
    (newKey : List Char) (delta : Int) (oldLen : Nat)
    (li : List (Nat × List (Nat × List Char))) :
    ∀ (tids : List Nat) (heap : List TokenRef),
    (tids.foldl (processOne w lines newKey delta oldLen li) heap).length = heap.length := by
  intro tids
  induction tids with
  | nil => intro heap; rfl
  | cons t rest ih =>
    intro heap
    rw [List.foldl_cons, ih, length_processOne]

theorem foldProcess_preserves (w : Char → Bool) (lines : List (List Char))
    (newKey : List Char) (delta : Int) (oldLen : Nat)
    (li : List (Nat × List (Nat × List Char)))
    (P : TokenRef → Prop) (hP : ∀ t, P t → P (t.shift delta)) :
    ∀ (tids : List Nat) (heap : List TokenRef) (oid : Nat),
    oid ∉ tids → P (hGet heap oid) →
    P (hGet (tids.foldl (processOne w lines newKey delta oldLen li) heap) oid) := by
  intro tids
  induction tids with
  | nil => intro heap oid _ h; exact h
  | cons t rest ih =>
    intro heap oid hmem h
    simp only [List.mem_cons, not_or] at hmem
    rw [List.foldl_cons]
    exact ih _ oid hmem.2
      (processOne_preserves w lines newKey delta oldLen li heap t P hP oid hmem.1 h)

theorem processOne_empty_self (w : Char → Bool) (lines : List (List Char))
    (delta : Int) (oldLen : Nat) (li : List (Nat × List (Nat × List Char)))
    (heap : List TokenRef) (tid : Nat) (hlt : tid < heap.length) :
    (hGet (processOne w lines [] delta oldLen li heap tid) tid).end_x =
      (hGet (processOne w lines [] delta oldLen li heap tid) tid).start_x ∧
    (hGet (processOne w lines [] delta oldLen li heap tid) tid).text = [] := by
  unfold processOne
  have hself : (hGet (heap.set tid
      { hGet heap tid with end_x := (hGet heap tid).start_x, text := [] }) tid) =
      { hGet heap tid with end_x := (hGet heap tid).start_x, text := [] } :=
    hGet_set_self _ _ _ hlt
  by_cases hd : delta ≠ 0
  · rw [if_pos hd]
    rcases hg : alistGet? li (hGet heap tid).start_y with _ | entries
    · simp only [List.length_nil, if_pos, hg]
      rw [hself]
      exact ⟨rfl, rfl⟩
    · simp only [List.length_nil, if_pos, hg]
      rw [hGet_shiftOthers_self, hself]
      exact ⟨rfl, rfl⟩
  · rw [if_neg hd]
    simp only [List.length_nil, if_pos]
    rw [hself]
    exact ⟨rfl, rfl⟩

theorem foldProcess_empty (w : Char → Bool) (lines : List (List Char))
    (delta : Int) (oldLen : Nat) (li : List (Nat × List (Nat × List Char))) :
    ∀ (tids : List Nat), tids.Nodup →
    ∀ (heap : List TokenRef), (∀ t ∈ tids, t < heap.length) →
    ∀ tid ∈ tids,
    (hGet (tids.foldl (processOne w lines [] delta oldLen li) heap) tid).end_x =
      (hGet (tids.foldl (processOne w lines [] delta oldLen li) heap) tid).start_x ∧
    (hGet (tids.foldl (processOne w lines [] delta oldLen li) heap) tid).text = [] := by
  intro tids
  induction tids with
  | nil => intro _ heap _ tid hmem; cases hmem
  | cons t rest ih =>
    intro hnd heap hlen tid hmem
    obtain ⟨hnd1, hnd2⟩ := List.nodup_cons.mp hnd
    rw [List.foldl_cons]
    rcases List.mem_cons.mp hmem with h | h
    · subst h
      have hbase := processOne_empty_self w lines delta oldLen li heap tid
        (hlen tid (List.mem_cons_self _ _))
      exact foldProcess_preserves w lines [] delta oldLen li
        (fun tk => tk.end_x = tk.start_x ∧ tk.text = [])
        (fun tk htk => by
          unfold TokenRef.shift
          exact ⟨by simp only [htk.1], htk.2⟩)
        rest _ tid hnd1 hbase
    · exact ih hnd2 _
        (fun t' ht' => by rw [length_processOne]; exact hlen t' (List.mem_cons_of_mem _ ht'))
        tid h

theorem alistGet?_filterMap {α γ : Type} [DecidableEq α]
    {g : (α × List γ) → Option (α × List γ)} :
    ∀ {l : List (α × List γ)} {k : α} {es : List γ},
    alistGet? (l.filterMap g) k = some es →
    ∃ q ∈ l, g q = some (k, es) := by
  intro l
  induction l with
  | nil => intro k es h; simp [alistGet?] at h
  | cons q rest ih =>
    intro k es h
    rw [List.filterMap_cons] at h
    rcases hq : g q with _ | q'
    · rw [hq] at h
      obtain ⟨q'', hmem, hq''⟩ := ih h
      exact ⟨q'', List.mem_cons_of_mem _ hmem, hq''⟩
    · rw [hq] at h
      rw [alistGet?_cons] at h
      by_cases hk : q'.1 = k
      · rw [if_pos hk] at h
        injection h with h'
        refine ⟨q, List.mem_cons_self _ _, ?_⟩
        rw [hq]
        congr 1
        obtain ⟨a, b⟩ := q'
        simp only at hk h'
        rw [hk, h']
      · rw [if_neg hk] at h
        obtain ⟨q'', hmem, hq''⟩ := ih h
        exact ⟨q'', List.mem_cons_of_mem _ hmem, hq''⟩

/-- C6: when every character of the edited word has been deleted (`redraw`
derives the empty new word), the dictionary and the line index are untouched —
the bucket stays present under the original key — while every occurrence token
is set to zero length (`end_x == start_x`, `text == ''`); the subsequent state
transition (`finish_editing` and the word-switch path of `on_click` both call
`_cleanup_empty_word`) then removes the bucket and its `line_index` entries,
so removal happens only then, not during the keystroke that emptied the
word. -/
theorem redraw_empty_word (w : Char → Bool) (cs : Bool) (lines : List (List Char))
    (fx fy : Nat) (rest : List (Nat × Nat)) (s : SyncState)
    (oldKey : List Char) (t0 : Nat) (ts : List Nat)
    (h1 : s.our_key = some oldKey)
    (h4 : alistGet? s.dictionary oldKey = some (t0 :: ts))
    (hempty : newWordAt w cs (getLine lines fy) fx = [])
    (hne : oldKey ≠ [])
    (hnd : (t0 :: ts).Nodup)
    (hlen : ∀ tid ∈ t0 :: ts, tid < s.heap.length)
    (hlk : (s.line_index.map Prod.fst).Nodup) :
    (redraw w cs lines ((fx, fy) :: rest) s).dictionary = s.dictionary ∧
    (redraw w cs lines ((fx, fy) :: rest) s).line_index = s.line_index ∧
    (redraw w cs lines ((fx, fy) :: rest) s).our_key = some oldKey ∧
    (∀ tid ∈ t0 :: ts,
      (hGet (redraw w cs lines ((fx, fy) :: rest) s).heap tid).end_x =
        (hGet (redraw w cs lines ((fx, fy) :: rest) s).heap tid).start_x ∧
      (hGet (redraw w cs lines ((fx, fy) :: rest) s).heap tid).text = []) ∧
    (cleanupEmptyWord (redraw w cs lines ((fx, fy) :: rest) s) oldKey).2 = true ∧
    alistGet? (cleanupEmptyWord (redraw w cs lines ((fx, fy) :: rest) s) oldKey).1.dictionary
      oldKey = none ∧
    (∀ ln, ln ∈ (t0 :: ts).map (fun tid => (hGet s.heap tid).start_y) →
      ∀ es, alistGet?
        (cleanupEmptyWord (redraw w cs lines ((fx, fy) :: rest) s) oldKey).1.line_index ln =
          some es →
      ∀ e ∈ es, e.2 ≠ oldKey) := by
  have hr : redraw w cs lines ((fx, fy) :: rest) s =
      { s with
        heap := (t0 :: ts).foldl
          (processOne w lines [] ((0 : Int) - ((hGet s.heap t0).text.length : Int))
            (hGet s.heap t0).text.length s.line_index) s.heap
        our_key := some oldKey } := by
    unfold redraw
    rw [h1]
    simp only [hempty, h4, Option.getD_some, List.length_nil, Nat.cast_zero]
    rw [if_neg (fun hc => hne hc.2)]
    rw [if_neg (fun hc => hc.1 rfl)]
  set heap' := (t0 :: ts).foldl
    (processOne w lines [] ((0 : Int) - ((hGet s.heap t0).text.length : Int))
      (hGet s.heap t0).text.length s.line_index) s.heap with hheap'
  have hzero : ∀ tid ∈ t0 :: ts,
      (hGet heap' tid).end_x = (hGet heap' tid).start_x ∧ (hGet heap' tid).text = [] :=
    foldProcess_empty w lines _ _ s.line_index (t0 :: ts) hnd s.heap hlen
  have hcln : cleanupEmptyWord (redraw w cs lines ((fx, fy) :: rest) s) oldKey =
      ({ heap := heap'
         dictionary := alistDel s.dictionary oldKey
         line_index := removeWordFromLines oldKey
           (((t0 :: ts).map (fun tid => (hGet heap' tid).start_y)).dedup) s.line_index
         our_key := some oldKey },
        true) := by
    rw [hr]
    unfold cleanupEmptyWord
    rw [if_neg hne]
    simp only [h4]
    rw [if_neg (by simp : ¬ (t0 :: ts) = [])]
    rw [if_pos]
    · apply List.all_eq_true.mpr
      intro tid hmem
      exact decide_eq_true (Or.inl (hzero tid hmem).2)
  have hsy : ∀ tid, (hGet heap' tid).start_y = (hGet s.heap tid).start_y := by
    intro tid
    exact foldProcess_start_y w lines _ _ _ s.line_index (t0 :: ts) s.heap tid
  refine ⟨by rw [hr], by rw [hr], by rw [hr], by rw [hr]; exact hzero, by rw [hcln], ?_, ?_⟩
  · rw [hcln]
    exact alistGet?_del_self _ _
  · intro ln hln es hget e hes
    rw [hcln] at hget
    simp only at hget
    rw [removeWordFromLines_eq oldKey _ (List.nodup_dedup _) s.line_index hlk] at hget
    obtain ⟨q, hqmem, hq⟩ := alistGet?_filterMap hget
    have hlnA : ln ∈ ((t0 :: ts).map (fun tid => (hGet heap' tid).start_y)).dedup := by
      rw [List.mem_dedup]
      obtain ⟨tid, htid, hval⟩ := List.mem_map.mp hln
      exact List.mem_map.mpr ⟨tid, htid, by rw [hsy]; exact hval⟩
    by_cases hqA : q.1 ∈ ((t0 :: ts).map (fun tid => (hGet heap' tid).start_y)).dedup
    · rw [if_pos hqA] at hq
      by_cases hf : q.2.filter (fun e => decide (e.2 ≠ oldKey)) = []
      · rw [if_pos hf] at hq; cases hq
      · rw [if_neg hf] at hq
        injection hq with hq'
        have hes' : e ∈ q.2.filter (fun e => decide (e.2 ≠ oldKey)) := by
          have : es = q.2.filter (fun e => decide (e.2 ≠ oldKey)) :=
            congrArg Prod.snd hq'.symm
          rw [← this]; exact hes
        exact of_decide_eq_true ((List.mem_filter.mp hes').2)
    · rw [if_neg hqA] at hq
      injection hq with hq'
      subst hq'
      exact absurd hlnA hqA

/-- Witness for C6: deleting the whole word `ccc` (buffer now `\x20ddd` /
`ddd\x20`) keeps the dictionary unchanged during the keystroke; the
transition cleanup then reports `True` and the bucket is gone. -/
theorem redraw_empty_word_witness :
    (redraw exW true [" ddd".toList, "ddd ".toList] [(0, 0)] exState).dictionary
        = exState.dictionary ∧
    (cleanupEmptyWord (redraw exW true [" ddd".toList, "ddd ".toList] [(0, 0)] exState)
        "ccc".toList).2 = true ∧
    alistGet? (cleanupEmptyWord (redraw exW true [" ddd".toList, "ddd ".toList] [(0, 0)]
        exState) "ccc".toList).1.dictionary "ccc".toList = none := by
  have h := redraw_empty_word exW true [" ddd".toList, "ddd ".toList] 0 0 [] exState
    "ccc".toList 0 [3] (by decide) (by decide) (by decide) (by decide) (by decide)
    (by decide) (by decide)
  exact ⟨h.1, h.2.2.2.2.1, h.2.2.2.2.2.1⟩

/-! ## Shift and frame lemmas for the occurrence loop (helpers) -/
theorem TokenRef.shift_zero (t : TokenRef) : t.shift 0 = t := by
  unfold TokenRef.shift
  simp

theorem shiftOthers_spec (tid : Nat) (oldX : Int) (oldLen : Nat) (delta : Int) :
    ∀ (entries : List (Nat × List Char)) (heap : List TokenRef),
    (entries.map Prod.fst).Nodup →
    ∀ oid, oid ∈ entries.map Prod.fst → oid ≠ tid → oid < heap.length →
    hGet (shiftOthers tid oldX oldLen delta entries heap) oid =
      (if oldX + (oldLen : Int) ≤ (hGet heap oid).start_x
       then (hGet heap oid).shift delta else hGet heap oid) := by
  intro entries
  induction entries with
  | nil => intro heap _ oid hmem; simp at hmem
  | cons e rest ih =>
    intro heap hnd oid hmem hne hlt
    obtain ⟨e1, ew⟩ := e
    rw [List.map_cons, List.nodup_cons] at hnd
    have hmem2 := hmem
    rw [List.map_cons] at hmem2
    rw [shiftOthers_cons]
    by_cases hoe : oid = e1
    · subst hoe
      rw [if_neg hne]
      have hnotrest : oid ∉ rest.map Prod.fst := hnd.1
      by_cases hcond : oldX + (oldLen : Int) ≤ (hGet heap oid).start_x
      · rw [if_pos hcond, shiftOthers_frame _ _ _ _ _ _ _ hnotrest,
          hGet_set_self _ _ _ hlt, if_pos hcond]
      · rw [if_neg hcond, shiftOthers_frame _ _ _ _ _ _ _ hnotrest, if_neg hcond]
    · have hmem' : oid ∈ rest.map Prod.fst := by
        rcases List.mem_cons.mp hmem2 with h | h
        · exact absurd h hoe
        · exact h
      have hstep : ∀ hp : List TokenRef, hp = (if (e1, ew).1 = tid then heap
          else if oldX + (oldLen : Int) ≤ (hGet heap (e1, ew).1).start_x
               then heap.set (e1, ew).1 ((hGet heap (e1, ew).1).shift delta) else heap) →
          hGet hp oid = hGet heap oid ∧ hp.length = heap.length := by
        intro hp hhp
        subst hhp
        by_cases h1 : (e1, ew).1 = tid
        · rw [if_pos h1]; exact ⟨rfl, rfl⟩
        · rw [if_neg h1]
          by_cases h2 : oldX + (oldLen : Int) ≤ (hGet heap (e1, ew).1).start_x
          · rw [if_pos h2]
            exact ⟨hGet_set_ne _ _ (fun hh => hoe hh.symm), List.length_set _ _ _⟩
          · rw [if_neg h2]; exact ⟨rfl, rfl⟩
      obtain ⟨hval, hlen⟩ := hstep _ rfl
      rw [ih _ hnd.2 oid hmem' hne (by rw [hlen]; exact hlt), hval]

/-- The per-occurrence step of `redraw`, observed at any *other* token on the
occurrence's line: shifted by exactly `delta` when its start column is at or
beyond the occurrence's original end, untouched otherwise. -/
theorem processOne_shifts (w : Char → Bool) (lines : List (List Char))
    (newKey : List Char) (delta : Int) (oldLen : Nat)
    (li : List (Nat × List (Nat × List Char))) (heap : List TokenRef) (tid : Nat)
    (entries : List (Nat × List Char))
    (hg : alistGet? li (hGet heap tid).start_y = some entries)
    (hnd : (entries.map Prod.fst).Nodup)
    (oid : Nat) (hmem : oid ∈ entries.map Prod.fst) (hne : oid ≠ tid)
    (hlt : oid < heap.length) :
    hGet (processOne w lines newKey delta oldLen li heap tid) oid =
      (if (hGet heap tid).start_x + (oldLen : Int) ≤ (hGet heap oid).start_x
       then (hGet heap oid).shift delta else hGet heap oid) := by
  unfold processOne
  have hset : ∀ t, hGet (heap.set tid t) oid = hGet heap oid :=
    fun t => hGet_set_ne _ _ (fun hh => hne hh.symm)
  have hgen : ∀ t : TokenRef,
      hGet (shiftOthers tid (hGet heap tid).start_x oldLen delta entries
        (heap.set tid t)) oid =
      (if (hGet heap tid).start_x + (oldLen : Int) ≤ (hGet heap oid).start_x
       then (hGet heap oid).shift delta else hGet heap oid) := by
    intro t
    rw [shiftOthers_spec tid _ oldLen delta entries (heap.set tid t) hnd oid hmem hne
      (by rw [List.length_set]; exact hlt), hset t]
  by_cases hd : delta ≠ 0
  · rw [if_pos hd]
    by_cases hk : newKey.length = 0 <;>
      · simp only [hk, if_pos, if_neg, hg]
        exact hgen _
  · rw [if_neg hd]
    push_neg at hd
    subst hd
    by_cases hk : newKey.length = 0 <;>
      · simp only [hk, if_pos, if_neg, if_true, if_false, eq_self_iff_true]
        rw [hset]
        by_cases hcond : (hGet heap tid).start_x + (oldLen : Int) ≤ (hGet heap oid).start_x
        · rw [if_pos hcond, TokenRef.shift_zero]
        · rw [if_neg hcond]

/-- Frame for the whole occurrence loop: a token appearing neither among the
edited occurrences nor in any affected line's entry list is untouched. -/
theorem foldProcess_frame (w : Char → Bool) (lines : List (List Char))
    (newKey : List Char) (delta : Int) (oldLen : Nat)
    (li : List (Nat × List (Nat × List Char))) :
    ∀ (tids : List Nat) (heap : List TokenRef) (oid : Nat),
    (∀ tid ∈ tids, oid ≠ tid) →
    (∀ tid ∈ tids, ∀ entries, alistGet? li (hGet heap tid).start_y = some entries →
       oid ∉ entries.map Prod.fst) →
    hGet (tids.foldl (processOne w lines newKey delta oldLen li) heap) oid = hGet heap oid := by
  intro tids
  induction tids with
  | nil => intro heap oid _ _; rfl
  | cons t rest ih =>
    intro heap oid hne hent
    rw [List.foldl_cons]
    have hstep : hGet (processOne w lines newKey delta oldLen li heap t) oid = hGet heap oid := by
      unfold processOne
      have hset : ∀ tk, hGet (heap.set t tk) oid = hGet heap oid :=
        fun tk => hGet_set_ne _ _ (fun hh => (hne t (List.mem_cons_self _ _)) hh.symm)
      by_cases hd : delta ≠ 0
      · rw [if_pos hd]
        rcases hg : alistGet? li (hGet heap t).start_y with _ | entries
        · by_cases hk : newKey.length = 0 <;> simp only [hk, if_pos, if_neg, hg] <;>
            exact hset _
        · have hnm : oid ∉ entries.map Prod.fst :=
            hent t (List.mem_cons_self _ _) entries hg
          by_cases hk : newKey.length = 0 <;> simp only [hk, if_pos, if_neg, hg] <;>
            · rw [shiftOthers_frame _ _ _ _ _ _ _ hnm]
              exact hset _
      · rw [if_neg hd]
        by_cases hk : newKey.length = 0 <;> simp only [hk, if_pos, if_neg] <;> exact hset _
    rw [ih _ oid (fun tid ht => hne tid (List.mem_cons_of_mem _ ht)) ?_, hstep]
    intro tid ht entries hg
    apply hent tid (List.mem_cons_of_mem _ ht) entries
    rw [← hg, processOne_start_y]

/-- `redraw` either exits before the occurrence loop (heap untouched) or its
heap is exactly the occurrence-loop fold. -/
theorem redraw_heap_cases (w : Char → Bool) (cs : Bool) (lines : List (List Char))
    (fx fy : Nat) (rest : List (Nat × Nat)) (s : SyncState)
    (oldKey : List Char) (t0 : Nat) (ts : List Nat)
    (h1 : s.our_key = some oldKey)
    (h4 : alistGet? s.dictionary oldKey = some (t0 :: ts)) :
    (redraw w cs lines ((fx, fy) :: rest) s).heap = s.heap ∨
    (redraw w cs lines ((fx, fy) :: rest) s).heap =
      (t0 :: ts).foldl
        (processOne w lines (newWordAt w cs (getLine lines fy) fx)
          (((newWordAt w cs (getLine lines fy) fx).length : Int) -
            ((hGet s.heap t0).text.length : Int))
          (hGet s.heap t0).text.length s.line_index) s.heap := by
  unfold redraw
  rw [h1]
  simp only [h4, Option.getD_some]
  by_cases hx : ((newWordAt w cs (getLine lines fy) fx).length : Int) -
      ((hGet s.heap t0).text.length : Int) = 0 ∧
      oldKey = newWordAt w cs (getLine lines fy) fx
  · rw [if_pos hx]
    left
    rfl
  · rw [if_neg hx]
    by_cases hy : newWordAt w cs (getLine lines fy) fx ≠ [] ∧
        oldKey ≠ newWordAt w cs (getLine lines fy) fx
    · rw [if_pos hy]
      right
      rfl
    · rw [if_neg hy]
      right
      rfl

/-- C1: during live-edit propagation, for every occurrence of the edited
word, after the occurrence's own span is updated every *other* token on that
occurrence's line whose start column is at or beyond the occurrence's original
end column (`old_token_x + old_length`) is shifted by exactly
`delta = new_length - old_length`, and every other token is untouched
(conjunct 1, the per-occurrence step of the loop); and a token that is neither
an edited occurrence nor recorded on any line containing an occurrence of the
edited word is not mutated at all by `redraw` (conjunct 2). -/
theorem redraw_shift_and_frame :
    (∀ (w : Char → Bool) (lines : List (List Char)) (newKey : List Char) (oldLen : Nat)
       (li : List (Nat × List (Nat × List Char))) (heap : List TokenRef) (tid : Nat)
       (entries : List (Nat × List Char)) (oid : Nat),
       alistGet? li (hGet heap tid).start_y = some entries →
       (entries.map Prod.fst).Nodup →
       oid ∈ entries.map Prod.fst → oid ≠ tid → oid < heap.length →
       hGet (processOne w lines newKey ((newKey.length : Int) - (oldLen : Int)) oldLen
           li heap tid) oid =
         (if (hGet heap tid).start_x + (oldLen : Int) ≤ (hGet heap oid).start_x
          then (hGet heap oid).shift ((newKey.length : Int) - (oldLen : Int))
          else hGet heap oid)) ∧
    (∀ (w : Char → Bool) (cs : Bool) (lines : List (List Char)) (fx fy : Nat)
       (rest : List (Nat × Nat)) (s : SyncState) (oldKey : List Char)
       (edited : List Nat) (oid : Nat),
       s.our_key = some oldKey →
       alistGet? s.dictionary oldKey = some edited →
       (∀ tid ∈ edited, oid ≠ tid) →
       (∀ tid ∈ edited, ∀ entries,
          alistGet? s.line_index (hGet s.heap tid).start_y = some entries →
          oid ∉ entries.map Prod.fst) →
       hGet (redraw w cs lines ((fx, fy) :: rest) s).heap oid = hGet s.heap oid) := by
  constructor
  · intro w lines newKey oldLen li heap tid entries oid hg hnd hmem hne hlt
    exact processOne_shifts w lines newKey _ oldLen li heap tid entries hg hnd oid hmem hne hlt
  · intro w cs lines fx fy rest s oldKey edited oid h1 h4 hni hent
    rcases edited with _ | ⟨t0, ts⟩
    · unfold redraw
      rw [h1]
      simp only [h4, Option.getD_some]
    · rcases redraw_heap_cases w cs lines fx fy rest s oldKey t0 ts h1 h4 with h | h
      · rw [h]
      · rw [h]
        exact foldProcess_frame w lines _ _ _ s.line_index (t0 :: ts) s.heap oid hni hent

/-- When the early exit does not trigger, `redraw`'s heap is exactly the
occurrence-loop fold with `delta = new_length - len(edited_tokens[0].text)`. -/
theorem redraw_heap_eq (w : Char → Bool) (cs : Bool) (lines : List (List Char))
    (fx fy : Nat) (rest : List (Nat × Nat)) (s : SyncState)
    (oldKey : List Char) (t0 : Nat) (ts : List Nat)
    (h1 : s.our_key = some oldKey)
    (h4 : alistGet? s.dictionary oldKey = some (t0 :: ts))
    (hdx : ¬ (((newWordAt w cs (getLine lines fy) fx).length : Int) -
        ((hGet s.heap t0).text.length : Int) = 0 ∧
        oldKey = newWordAt w cs (getLine lines fy) fx)) :
    (redraw w cs lines ((fx, fy) :: rest) s).heap =
      (t0 :: ts).foldl
        (processOne w lines (newWordAt w cs (getLine lines fy) fx)
          (((newWordAt w cs (getLine lines fy) fx).length : Int) -
            ((hGet s.heap t0).text.length : Int))
          (hGet s.heap t0).text.length s.line_index) s.heap := by
  unfold redraw
  rw [h1]
  simp only [h4, Option.getD_some]
  rw [if_neg hdx]
  by_cases hy : newWordAt w cs (getLine lines fy) fx ≠ [] ∧
      oldKey ≠ newWordAt w cs (getLine lines fy) fx
  · rw [if_pos hy]
  · rw [if_neg hy]

/-- C5: the length delta that `redraw` applies is
`new_length - len(edited_tokens[0].text)` — computed from the first token's
own previously recorded `text`, not from the length of the dictionary key the
tokens are stored under: a neighbouring token beyond the occurrence's end
moves by exactly that amount.  In particular (see the witness) when a prior
edit emptied the word (`text == ''`), the next keystroke's delta equals the
full new length even though the dictionary key is still the original non-empty
word. -/
theorem redraw_delta_from_token_text (w : Char → Bool) (cs : Bool)
    (lines : List (List Char)) (fx fy : Nat) (rest : List (Nat × Nat)) (s : SyncState)
    (oldKey : List Char) (t0 : Nat) (ts : List Nat)
    (entries : List (Nat × List Char)) (oid : Nat)
    (h1 : s.our_key = some oldKey)
    (h4 : alistGet? s.dictionary oldKey = some (t0 :: ts))
    (hdx : ¬ (((newWordAt w cs (getLine lines fy) fx).length : Int) -
        ((hGet s.heap t0).text.length : Int) = 0 ∧
        oldKey = newWordAt w cs (getLine lines fy) fx))
    (hg : alistGet? s.line_index (hGet s.heap t0).start_y = some entries)
    (hnd : (entries.map Prod.fst).Nodup)
    (hmem : oid ∈ entries.map Prod.fst)
    (hne : oid ≠ t0)
    (hlt : oid < s.heap.length)
    (hcond : (hGet s.heap t0).start_x + ((hGet s.heap t0).text.length : Int) ≤
      (hGet s.heap oid).start_x)
    (hrest1 : ∀ tid ∈ ts, oid ≠ tid)
    (hrest2 : ∀ tid ∈ ts, ∀ entries',
      alistGet? s.line_index (hGet s.heap tid).start_y = some entries' →
      oid ∉ entries'.map Prod.fst) :
    (hGet (redraw w cs lines ((fx, fy) :: rest) s).heap oid).start_x =
      (hGet s.heap oid).start_x +
        (((newWordAt w cs (getLine lines fy) fx).length : Int) -
          ((hGet s.heap t0).text.length : Int)) := by
  rw [redraw_heap_eq w cs lines fx fy rest s oldKey t0 ts h1 h4 hdx]
  rw [List.foldl_cons]
  have hstep := processOne_shifts w lines (newWordAt w cs (getLine lines fy) fx)
    (((newWordAt w cs (getLine lines fy) fx).length : Int) -
      ((hGet s.heap t0).text.length : Int))
    (hGet s.heap t0).text.length s.line_index s.heap t0 entries hg hnd oid hmem hne hlt
  have hframe := foldProcess_frame w lines (newWordAt w cs (getLine lines fy) fx)
    (((newWordAt w cs (getLine lines fy) fx).length : Int) -
      ((hGet s.heap t0).text.length : Int))
    (hGet s.heap t0).text.length s.line_index ts
    (processOne w lines (newWordAt w cs (getLine lines fy) fx)
      (((newWordAt w cs (getLine lines fy) fx).length : Int) -
        ((hGet s.heap t0).text.length : Int))
      (hGet s.heap t0).text.length s.line_index s.heap t0) oid hrest1
    (fun tid ht entries' hg' =>
      hrest2 tid ht entries' (by rwa [processOne_start_y] at hg'))
  rw [hframe, hstep, if_pos hcond]
  rfl

/-- Witness for C1: in the `ccc -> cccx` scenario the `ddd` token after the
first occurrence (id 1, start 4) moves right by exactly 1, and token 4 on line
2 — a line with no `ccc` occurrence — is untouched by the whole `redraw`. -/
theorem redraw_shift_and_frame_witness :
    hGet (processOne exW ["cccx ddd".toList, "ddd cccx".toList] "cccx".toList
        (("cccx".toList.length : Int) - ((3 : Nat) : Int)) 3 exState.line_index exHeap 0) 1 =
      ⟨5, 0, 8, 0, "ddd".toList, "id"⟩ ∧
    hGet (redraw exW true ["cccx ddd".toList, "ddd cccx".toList, "eee eee".toList]
        [(4, 0)] exState3).heap 4 = ⟨0, 2, 3, 2, "eee".toList, "id"⟩ := by
  constructor
  · have hA := redraw_shift_and_frame.1 exW ["cccx ddd".toList, "ddd cccx".toList]
      "cccx".toList 3 exState.line_index exHeap 0
      [(0, "ccc".toList), (1, "ddd".toList)] 1
      (by decide) (by decide) (by decide) (by decide) (by decide)
    rw [hA]
    decide
  · have hB := redraw_shift_and_frame.2 exW true
      ["cccx ddd".toList, "ddd cccx".toList, "eee eee".toList] 4 0 [] exState3
      "ccc".toList [0, 3] 4 (by decide) (by decide) (by decide) (by decide)
    rw [hB]
    decide

/-- Witness for C5: tokens 0 and 3 record `text = ''` after a prior edit
emptied the word, while the dictionary key is still `ccc` (length 3); typing
`zz` shifts the neighbouring `ddd` token by the full new length 2 (from
column 3 to column 5), i.e. `delta = 2 - 0`, not `2 - 3`. -/
theorem redraw_delta_from_token_text_witness :
    (hGet (redraw exW true ["zz ddd".toList, "ddd zz".toList] [(2, 0)]
        emptiedState).heap 1).start_x = 5 := by
  have h := redraw_delta_from_token_text exW true ["zz ddd".toList, "ddd zz".toList]
    2 0 [] emptiedState "ccc".toList 0 [3] [(0, "ccc".toList), (1, "ddd".toList)] 1
    (by decide) (by decide) (by decide) (by decide) (by decide) (by decide) (by decide)
    (by decide) (by decide) (by decide) (by decide)
  rw [h]
  decide

-- ==== C3 kit: small alist/heap lemmas ====
section AList3
variable {α : Type} {β : Type} [DecidableEq α]

theorem alistSet_mem {l : List (α × β)} {k : α} {v : β} {q : α × β}
    (h : q ∈ alistSet l k v) : q = (k, v) ∨ q ∈ l := by
  induction l with
  | nil => simpa [alistSet] using h
  | cons kv rest ih =>
    rw [alistSet_cons] at h
    by_cases hk : kv.1 = k
    · rw [if_pos hk] at h
      rcases List.mem_cons.mp h with h1 | h1
      · exact Or.inl h1
      · exact Or.inr (List.mem_cons_of_mem _ h1)
    · rw [if_neg hk] at h
      rcases List.mem_cons.mp h with h1 | h1
      · exact Or.inr (h1 ▸ List.mem_cons_self _ _)
      · rcases ih h1 with h2 | h2
        · exact Or.inl h2
        · exact Or.inr (List.mem_cons_of_mem _ h2)

theorem alistSet_keys_nodup {l : List (α × β)} (k : α) (v : β)
    (h : (l.map Prod.fst).Nodup) : ((alistSet l k v).map Prod.fst).Nodup := by
  by_cases hmem : k ∈ l.map Prod.fst
  · rcases hget : alistGet? l k with _ | v0
    · exact absurd (alistGet?_eq_none_iff.mp hget) (fun hh => hh hmem)
    · rw [alistSet_get_eq_map h hget (fun _ => v)]
      have hkeys : ((l.map (fun p => if p.1 = k then (p.1, v) else p)).map Prod.fst) =
          l.map Prod.fst := by
        rw [List.map_map]
        apply List.map_congr_left
        intro p _
        by_cases hp : p.1 = k <;> simp [hp]
      rw [hkeys]
      exact h
  · rw [alistSet_of_not_mem v hmem, List.map_append]
    simp only [List.map_cons, List.map_nil]
    rw [List.nodup_append]
    refine ⟨h, List.nodup_singleton k, ?_⟩
    intro a ha hb
    rw [List.mem_singleton] at hb
    exact hmem (hb ▸ ha)

theorem alistDel_mem {l : List (α × β)} {k : α} {q : α × β}
    (h : q ∈ alistDel l k) : q ∈ l :=
  List.mem_of_mem_filter h

theorem alistDel_keys_nodup {l : List (α × β)} (k : α)
    (h : (l.map Prod.fst).Nodup) : ((alistDel l k).map Prod.fst).Nodup :=
  ((List.filter_sublist l).map Prod.fst).nodup h

theorem alistGet?_of_mem_nodup {l : List (α × β)} {k : α} {v : β}
    (hnd : (l.map Prod.fst).Nodup) (h : (k, v) ∈ l) : alistGet? l k = some v := by
  induction l with
  | nil => cases h
  | cons kv rest ih =>
    rw [List.map_cons, List.nodup_cons] at hnd
    rw [alistGet?_cons]
    rcases List.mem_cons.mp h with h1 | h1
    · rw [← h1]
      rw [if_pos rfl]
    · have hk : ¬ kv.1 = k := by
        intro hh
        exact hnd.1 (hh ▸ List.mem_map_of_mem Prod.fst h1)
      rw [if_neg hk]
      exact ih hnd.2 h1

end AList3

theorem hGet_append_lt (h : List TokenRef) (h2 : List TokenRef) {tid : Nat}
    (hlt : tid < h.length) : hGet (h ++ h2) tid = hGet h tid := by
  unfold hGet
  rw [List.getD_eq_getElem?_getD, List.getD_eq_getElem?_getD,
    List.getElem?_append_left hlt]

theorem hGet_append_len (h : List TokenRef) (t : TokenRef) :
    hGet (h ++ [t]) h.length = t := by
  unfold hGet
  rw [List.getD_eq_getElem?_getD, List.getElem?_append_right (Nat.le_refl _)]
  simp

/-- Structural invariants of the index built by the scanner (both modes build
through `buildIndex`): unique dictionary keys, unique line keys, every line
entry on its own token's line with an in-range id, and no empty line entry. -/
theorem buildIndex_fold_inv (cs : Bool) :
    ∀ (toks : List TokenRef) (st : SyncState),
    (st.dictionary.map Prod.fst).Nodup →
    (st.line_index.map Prod.fst).Nodup →
    (∀ ye ∈ st.line_index, ∀ e ∈ ye.2,
      e.1 < st.heap.length ∧ (hGet st.heap e.1).start_y = ye.1) →
    (∀ ye ∈ st.line_index, ye.2 ≠ []) →
    (((toks.foldl (scanAddToken cs) st).dictionary.map Prod.fst).Nodup ∧
     ((toks.foldl (scanAddToken cs) st).line_index.map Prod.fst).Nodup ∧
     (∀ ye ∈ (toks.foldl (scanAddToken cs) st).line_index, ∀ e ∈ ye.2,
        e.1 < (toks.foldl (scanAddToken cs) st).heap.length ∧
        (hGet (toks.foldl (scanAddToken cs) st).heap e.1).start_y = ye.1) ∧
     (∀ ye ∈ (toks.foldl (scanAddToken cs) st).line_index, ye.2 ≠ [])) := by
  intro toks
  induction toks with
  | nil => intro st h1 h2 h3 h4; exact ⟨h1, h2, h3, h4⟩
  | cons tok rest ih =>
    intro st h1 h2 h3 h4
    rw [List.foldl_cons]
    apply ih
    · exact alistSet_keys_nodup _ _ h1
    · exact alistSet_keys_nodup _ _ h2
    · intro ye hye e he
      simp only [scanAddToken] at hye ⊢
      have hmm : ye = (tok.start_y,
          ((alistGet? st.line_index tok.start_y).getD []) ++
            [(st.heap.length, normWord cs tok.text)]) ∨ ye ∈ st.line_index :=
        alistSet_mem hye
      have hlen : (st.heap ++ [tok]).length = st.heap.length + 1 := by simp
      rcases hmm with hq | hq
      · subst hq
        simp only at he
        rcases List.mem_append.mp he with h5 | h5
        · rcases hget : alistGet? st.line_index tok.start_y with _ | es
          · rw [hget] at h5; cases h5
          · rw [hget] at h5
            have hmem := alistGet?_mem hget
            have := h3 _ hmem e h5
            constructor
            · rw [hlen]; exact Nat.lt_succ_of_lt this.1
            · rw [hGet_append_lt _ _ this.1]; exact this.2
        · rw [List.mem_singleton] at h5
          subst h5
          constructor
          · rw [hlen]; exact Nat.lt_succ_self _
          · rw [hGet_append_len]
      · have := h3 _ hq e he
        constructor
        · rw [hlen]; exact Nat.lt_succ_of_lt this.1
        · rw [hGet_append_lt _ _ this.1]; exact this.2
    · intro ye hye
      rcases alistSet_mem hye with hq | hq
      · subst hq
        simp
      · exact h4 _ hq

theorem removeTokensFromLines_cons (heap : List TokenRef) (t : Nat) (tids : List Nat)
    (li : List (Nat × List (Nat × List Char))) :
    removeTokensFromLines heap (t :: tids) li =
      removeTokensFromLines heap tids
        (match alistGet? li (hGet heap t).start_y with
         | none => li
         | some entries =>
             let entries' := entries.filter (fun e => decide (e.1 ≠ t))
             if entries' = [] then alistDel li (hGet heap t).start_y
             else alistSet li (hGet heap t).start_y entries') := rfl

/-- Per-step subset: each surviving line bucket is a sub-bucket of an original
one on the same line. -/
theorem filterdel_step_subset {li : List (Nat × List (Nat × List Char))} {ln : Nat}
    {p : (Nat × List Char) → Bool} {q : Nat × List (Nat × List Char)}
    (h : q ∈ (match alistGet? li ln with
         | none => li
         | some entries =>
             let entries' := entries.filter p
             if entries' = [] then alistDel li ln else alistSet li ln entries')) :
    ∃ es0, (q.1, es0) ∈ li ∧ ∀ e ∈ q.2, e ∈ es0 := by
  rcases hg : alistGet? li ln with _ | entries
  · rw [hg] at h
    exact ⟨q.2, by rw [Prod.mk.eta]; exact h, fun e he => he⟩
  · rw [hg] at h
    simp only at h
    by_cases hf : entries.filter p = []
    · rw [if_pos hf] at h
      exact ⟨q.2, by rw [Prod.mk.eta]; exact alistDel_mem h, fun e he => he⟩
    · rw [if_neg hf] at h
      rcases alistSet_mem h with h1 | h1
      · subst h1
        exact ⟨entries, alistGet?_mem hg, fun e he => List.mem_of_mem_filter he⟩
      · exact ⟨q.2, by rw [Prod.mk.eta]; exact h1, fun e he => he⟩

theorem filterdel_step_keys_nodup {li : List (Nat × List (Nat × List Char))} {ln : Nat}
    {p : (Nat × List Char) → Bool}
    (hk : (li.map Prod.fst).Nodup) :
    (((match alistGet? li ln with
       | none => li
       | some entries =>
           let entries' := entries.filter p
           if entries' = [] then alistDel li ln
           else alistSet li ln entries') : List (Nat × List (Nat × List Char))).map
      Prod.fst).Nodup := by
  rcases hg : alistGet? li ln with _ | entries
  · exact hk
  · simp only
    by_cases hf : entries.filter p = []
    · rw [if_pos hf]
      exact alistDel_keys_nodup _ hk
    · rw [if_neg hf]
      exact alistSet_keys_nodup _ _ hk

theorem removeTokensFromLines_subset (heap : List TokenRef) :
    ∀ (tids : List Nat) (li : List (Nat × List (Nat × List Char)))
      (q : Nat × List (Nat × List Char)),
    q ∈ removeTokensFromLines heap tids li →
    ∃ es0, (q.1, es0) ∈ li ∧ ∀ e ∈ q.2, e ∈ es0 := by
  intro tids
  induction tids with
  | nil => intro li q h; exact ⟨q.2, by rw [Prod.mk.eta]; exact h, fun e he => he⟩
  | cons t rest ih =>
    intro li q h
    rw [removeTokensFromLines_cons] at h
    obtain ⟨es1, hes1, hsub1⟩ := ih _ q h
    obtain ⟨es0, hes0, hsub0⟩ := filterdel_step_subset hes1
    exact ⟨es0, hes0, fun e he => hsub0 e (hsub1 e he)⟩

theorem removeTokensFromLines_keys_nodup (heap : List TokenRef) :
    ∀ (tids : List Nat) (li : List (Nat × List (Nat × List Char))),
    (li.map Prod.fst).Nodup →
    ((removeTokensFromLines heap tids li).map Prod.fst).Nodup := by
  intro tids
  induction tids with
  | nil => intro li hk; exact hk
  | cons t rest ih =>
    intro li hk
    rw [removeTokensFromLines_cons]
    exact ih _ (filterdel_step_keys_nodup hk)

theorem removeTokensFromLines_noEmpty (heap : List TokenRef) :
    ∀ (tids : List Nat) (li : List (Nat × List (Nat × List Char))),
    (∀ ye ∈ li, ye.2 ≠ []) →
    ∀ ye ∈ removeTokensFromLines heap tids li, ye.2 ≠ [] := by
  intro tids
  induction tids with
  | nil => intro li hni ye hye; exact hni ye hye
  | cons t rest ih =>
    intro li hni ye hye
    rw [removeTokensFromLines_cons] at hye
    refine ih _ ?_ ye hye
    intro ye' hye'
    rcases hg : alistGet? li (hGet heap t).start_y with _ | entries
    · rw [hg] at hye'
      exact hni ye' hye'
    · rw [hg] at hye'
      simp only at hye'
      by_cases hf : entries.filter (fun e => decide (e.1 ≠ t)) = []
      · rw [if_pos hf] at hye'
        exact hni ye' (alistDel_mem hye')
      · rw [if_neg hf] at hye'
        rcases alistSet_mem hye' with h1 | h1
        · rw [h1]
          exact hf
        · exact hni ye' h1

theorem filterdel_step_removes (heap : List TokenRef)
    {li : List (Nat × List (Nat × List Char))} {t : Nat}
    (hk : (li.map Prod.fst).Nodup)
    (hinv : ∀ ye ∈ li, ∀ e ∈ ye.2, (hGet heap e.1).start_y = ye.1)
    (q : Nat × List (Nat × List Char))
    (hq : q ∈ (match alistGet? li (hGet heap t).start_y with
           | none => li
           | some entries =>
               let entries' := entries.filter (fun e : Nat × List Char => decide (e.1 ≠ t))
               if entries' = [] then alistDel li (hGet heap t).start_y
               else alistSet li (hGet heap t).start_y entries'))
    (e : Nat × List Char) (he : e ∈ q.2) : e.1 ≠ t := by
  intro het
  rcases hg : alistGet? li (hGet heap t).start_y with _ | entries
  · rw [hg] at hq
    have h1 : (hGet heap e.1).start_y = q.1 := hinv q hq e he
    have h2 : (hGet heap t).start_y ∉ li.map Prod.fst := alistGet?_eq_none_iff.mp hg
    exact h2 (het ▸ h1 ▸ List.mem_map_of_mem Prod.fst hq)
  · rw [hg] at hq
    simp only at hq
    by_cases hf : entries.filter (fun e => decide (e.1 ≠ t)) = []
    · rw [if_pos hf] at hq
      have h1 : (hGet heap e.1).start_y = q.1 :=
        hinv q (alistDel_mem hq) e he
      have h2 : decide (q.1 ≠ (hGet heap t).start_y) = true := (List.mem_filter.mp hq).2
      exact (of_decide_eq_true h2) (by rw [← h1, het])
    · rw [if_neg hf] at hq
      have hset := alistSet_get_eq_map hk hg
        (fun _ => entries.filter (fun e => decide (e.1 ≠ t)))
      rw [hset] at hq
      obtain ⟨p, hp, hgq⟩ := List.mem_map.mp hq
      by_cases hp1 : p.1 = (hGet heap t).start_y
      · rw [if_pos hp1] at hgq
        have hq2 : e ∈ entries.filter (fun e => decide (e.1 ≠ t)) := by
          have h3 : q.2 = entries.filter (fun e => decide (e.1 ≠ t)) :=
            congrArg Prod.snd hgq.symm
          rw [← h3]
          exact he
        exact (of_decide_eq_true (List.mem_filter.mp hq2).2) het
      · rw [if_neg hp1] at hgq
        have h1 : (hGet heap e.1).start_y = p.1 :=
          hinv p hp e (by rw [hgq]; exact he)
        exact hp1 (by rw [← h1, het])

theorem removeTokensFromLines_removes (heap : List TokenRef) :
    ∀ (tids : List Nat) (li : List (Nat × List (Nat × List Char))),
    (li.map Prod.fst).Nodup →
    (∀ ye ∈ li, ∀ e ∈ ye.2, (hGet heap e.1).start_y = ye.1) →
    ∀ t ∈ tids, ∀ ye ∈ removeTokensFromLines heap tids li, ∀ e ∈ ye.2, e.1 ≠ t := by
  intro tids
  induction tids with
  | nil => intro li _ _ t hmem; cases hmem
  | cons t' rest ih =>
    intro li hk hinv t ht ye hye e he
    rw [removeTokensFromLines_cons] at hye
    have hinv' : ∀ ye', ye' ∈ (match alistGet? li (hGet heap t').start_y with
        | none => li
        | some entries =>
            let entries' := entries.filter (fun e : Nat × List Char => decide (e.1 ≠ t'))
            if entries' = [] then alistDel li (hGet heap t').start_y
            else alistSet li (hGet heap t').start_y entries') →
        ∀ e' ∈ ye'.2, (hGet heap e'.1).start_y = ye'.1 := by
      intro ye' hye' e' he'
      obtain ⟨es0, hes0, hsub⟩ := filterdel_step_subset hye'
      exact hinv (ye'.1, es0) hes0 e' (hsub e' he')
    rcases List.mem_cons.mp ht with heq | ht'
    · subst heq
      obtain ⟨es0, hes0, hsub⟩ := removeTokensFromLines_subset heap rest _ ye hye
      exact filterdel_step_removes heap hk hinv (ye.1, es0) hes0 e (hsub e he)
    · exact ih _ (filterdel_step_keys_nodup hk) hinv' t ht' ye hye e he

theorem pruneFold_dict_mem :
    ∀ (ks : List (List Char)) (st : SyncState) (kv : List Char × List Nat),
    kv ∈ (ks.foldl pruneStep st).dictionary → kv ∈ st.dictionary ∧ kv.1 ∉ ks := by
  intro ks
  induction ks with
  | nil => intro st kv h; exact ⟨h, List.not_mem_nil _⟩
  | cons k ks ih =>
    intro st kv h
    rw [List.foldl_cons] at h
    obtain ⟨h1, h2⟩ := ih _ kv h
    have h3 : kv ∈ st.dictionary := alistDel_mem h1
    have h4 : kv.1 ≠ k := of_decide_eq_true (List.mem_filter.mp h1).2
    refine ⟨h3, ?_⟩
    intro hmem
    rcases List.mem_cons.mp hmem with h5 | h5
    · exact h4 h5
    · exact h2 h5

theorem pruneFold_subset :
    ∀ (ks : List (List Char)) (st : SyncState) (q : Nat × List (Nat × List Char)),
    q ∈ (ks.foldl pruneStep st).line_index →
    ∃ es0, (q.1, es0) ∈ st.line_index ∧ ∀ e ∈ q.2, e ∈ es0 := by
  intro ks
  induction ks with
  | nil => intro st q h; exact ⟨q.2, by rw [Prod.mk.eta]; exact h, fun e he => he⟩
  | cons k ks ih =>
    intro st q h
    rw [List.foldl_cons] at h
    obtain ⟨es1, hes1, hsub1⟩ := ih _ q h
    obtain ⟨es0, hes0, hsub0⟩ :=
      removeTokensFromLines_subset st.heap _ _ (q.1, es1) hes1
    exact ⟨es0, hes0, fun e he => hsub0 e (hsub1 e he)⟩

theorem pruneFold_noEmpty :
    ∀ (ks : List (List Char)) (st : SyncState),
    (∀ ye ∈ st.line_index, ye.2 ≠ []) →
    ∀ ye ∈ (ks.foldl pruneStep st).line_index, ye.2 ≠ [] := by
  intro ks
  induction ks with
  | nil => intro st h ye hye; exact h ye hye
  | cons k ks ih =>
    intro st h ye hye
    rw [List.foldl_cons] at hye
    exact ih _ (fun ye' hye' => removeTokensFromLines_noEmpty st.heap _ _ h ye' hye') ye hye

theorem pruneFold_removes :
    ∀ (ks : List (List Char)), ks.Nodup →
    ∀ (st : SyncState),
    (st.line_index.map Prod.fst).Nodup →
    (∀ ye ∈ st.line_index, ∀ e ∈ ye.2, (hGet st.heap e.1).start_y = ye.1) →
    ∀ k ∈ ks, ∀ tid ∈ (alistGet? st.dictionary k).getD [],
    ∀ ye ∈ (ks.foldl pruneStep st).line_index, ∀ e ∈ ye.2, e.1 ≠ tid := by
  intro ks
  induction ks with
  | nil => intro _ st _ _ k hk; cases hk
  | cons k' ks ih =>
    intro hnd st hk hinv k hkmem tid htid ye hye e he
    obtain ⟨hnd1, hnd2⟩ := List.nodup_cons.mp hnd
    rw [List.foldl_cons] at hye
    rcases List.mem_cons.mp hkmem with heq | hks
    · subst heq
      have habs := removeTokensFromLines_removes st.heap
        ((alistGet? st.dictionary k).getD []) st.line_index hk hinv tid htid
      obtain ⟨es0, hes0, hsub⟩ := pruneFold_subset ks _ ye hye
      exact habs (ye.1, es0) hes0 e (hsub e he)
    · have hkne : k ≠ k' := fun hh => hnd1 (hh ▸ hks)
      refine ih hnd2 (pruneStep st k')
        (removeTokensFromLines_keys_nodup st.heap _ _ hk) ?_ k hks tid ?_ ye hye e he
      · intro ye' hye' e' he'
        obtain ⟨es0, hes0, hsub⟩ :=
          removeTokensFromLines_subset st.heap _ _ ye' hye'
        exact hinv (ye'.1, es0) hes0 e' (hsub e' he')
      · have : alistGet? (pruneStep st k').dictionary k = alistGet? st.dictionary k :=
          alistGet?_del_ne _ hkne
        rw [this]
        exact htid

theorem buildIndex_inv (cs : Bool) (toks : List TokenRef) :
    ((buildIndex cs toks).dictionary.map Prod.fst).Nodup ∧
    ((buildIndex cs toks).line_index.map Prod.fst).Nodup ∧
    (∀ ye ∈ (buildIndex cs toks).line_index, ∀ e ∈ ye.2,
      (hGet (buildIndex cs toks).heap e.1).start_y = ye.1) ∧
    (∀ ye ∈ (buildIndex cs toks).line_index, ye.2 ≠ []) := by
  obtain ⟨h1, h2, h3, h4⟩ := buildIndex_fold_inv cs toks ⟨[], [], [], none⟩
    (by simp) (by simp) (by intro ye hye; cases hye) (by intro ye hye; cases hye)
  exact ⟨h1, h2, fun ye hye e he => (h3 ye hye e he).2, h4⟩

theorem prunedIndexOK_buildIndex (cs : Bool) (toks : List TokenRef) :
    prunedIndexOK (buildIndex cs toks) := by
  obtain ⟨hd, hl, hinv, hne⟩ := buildIndex_inv cs toks
  unfold prunedIndexOK pruneSingletons
  refine ⟨?_, ?_, ?_⟩
  · intro kv hkv
    by_contra hlt
    push_neg at hlt
    obtain ⟨hmem, hnot⟩ := pruneFold_dict_mem _ _ _ hkv
    apply hnot
    exact List.mem_map_of_mem Prod.fst
      (List.mem_filter.mpr ⟨hmem, decide_eq_true hlt⟩)
  · intro k l hkl hlen tid htid ye hye e he
    have hks : k ∈ ((buildIndex cs toks).dictionary.filter
        (fun kv => kv.2.length < 2)).map Prod.fst :=
      List.mem_map_of_mem Prod.fst (List.mem_filter.mpr ⟨hkl, decide_eq_true hlen⟩)
    have hksnd : (((buildIndex cs toks).dictionary.filter
        (fun kv => kv.2.length < 2)).map Prod.fst).Nodup :=
      ((List.filter_sublist _).map Prod.fst).nodup hd
    have hget : alistGet? (buildIndex cs toks).dictionary k = some l :=
      alistGet?_of_mem_nodup hd hkl
    have htid' : tid ∈ (alistGet? (buildIndex cs toks).dictionary k).getD [] := by
      rw [hget]; exact htid
    exact pruneFold_removes _ hksnd _ hl hinv k hks tid htid' ye hye e he
  · exact pruneFold_noEmpty _ _ hne

/-- C3: after the scanner finishes building the index at session start (in both
naive and lexer mode), no word key whose occurrence list has fewer than 2
tokens remains in the dictionary, and the pruned singleton tokens are also
removed from `line_index`, with emptied line entries deleted
(`prunedIndexOK` states exactly these three properties of
`pruneSingletons (buildIndex ...)`). -/
theorem scan_prunes_singletons :
    (∀ (w : Char → Bool) (cs : Bool) (lines : List (List Char))
       (startL endL : Nat) (x1 x2 : Int),
       prunedIndexOK (buildIndex cs (naiveTokens w lines startL endL x1 x2))) ∧
    (∀ (styleOk : String → Bool) (cs : Bool) (tokenlist : List LexToken)
       (startL endL : Nat) (x1 x2 : Int),
       prunedIndexOK (buildIndex cs (lexerTokens styleOk tokenlist startL endL x1 x2))) :=
  ⟨fun _ cs _ _ _ _ _ => prunedIndexOK_buildIndex cs _,
   fun _ cs _ _ _ _ _ => prunedIndexOK_buildIndex cs _⟩

/-! ## Toolkit for the dictionary / line-index correspondence (C2) -/

theorem countP_fst_eq_one {β : Type} :
    ∀ (l : List (Nat × β)), (l.map Prod.fst).Nodup →
    ∀ t ∈ l.map Prod.fst, l.countP (fun q => decide (q.1 = t)) = 1 := by
  intro l
  induction l with
  | nil => intro _ t ht; cases ht
  | cons a rest ih =>
    intro hnd t ht
    rw [List.map_cons, List.nodup_cons] at hnd
    rw [List.countP_cons]
    rcases List.mem_cons.mp ht with h1 | h1
    · have hz : rest.countP (fun q => decide (q.1 = t)) = 0 := by
        rw [List.countP_eq_zero]
        intro q hq
        simp only [decide_eq_true_eq]
        intro hqe
        exact hnd.1 (h1 ▸ hqe ▸ List.mem_map_of_mem Prod.fst hq)
      rw [hz, if_pos (by simp [h1])]
    · have hne : ¬ a.1 = t := fun hh => hnd.1 (hh ▸ h1)
      rw [ih hnd.2 t h1, if_neg (by simpa using hne)]

theorem keys_nodup_eq_of_mem {β : Type} :
    ∀ (l : List (Nat × β)), (l.map Prod.fst).Nodup →
    ∀ p ∈ l, ∀ q ∈ l, p.1 = q.1 → p = q := by
  intro l
  induction l with
  | nil => intro _ p hp; cases hp
  | cons a rest ih =>
    intro hnd p hp q hq hpq
    rw [List.map_cons, List.nodup_cons] at hnd
    rcases List.mem_cons.mp hp with h1 | h1 <;> rcases List.mem_cons.mp hq with h2 | h2
    · rw [h1, h2]
    · exfalso
      apply hnd.1
      have hm : q.1 ∈ rest.map Prod.fst := List.mem_map_of_mem Prod.fst h2
      rwa [← hpq, h1] at hm
    · exfalso
      apply hnd.1
      have hm : p.1 ∈ rest.map Prod.fst := List.mem_map_of_mem Prod.fst h1
      rwa [hpq, h2] at hm
    · exact ih hnd.2 p h1 q h2 hpq

theorem syncInv_imp_tokenInv (s : SyncState) (h : syncInv s) : tokenInv s := by
  obtain ⟨hPerm, hIds, _, _, _⟩ := h
  have hIdsL : ((linePairs s).map Prod.fst).Nodup := (hPerm.map Prod.fst).nodup hIds
  constructor
  · intro tid htid
    have hmem : tid ∈ (dictPairs s).map Prod.fst := by
      unfold heldIds at htid
      rw [List.map_append] at htid
      rcases List.mem_append.mp htid with h1 | h1
      · exact h1
      · exact ((hPerm.map Prod.fst).mem_iff).mpr h1
    refine ⟨countP_fst_eq_one _ hIds tid hmem, ?_⟩
    rw [← hPerm.countP_eq]
    exact countP_fst_eq_one _ hIds tid hmem
  · intro p hp q hq hpq
    have hq' : q ∈ dictPairs s := hPerm.symm.subset hq
    exact congrArg Prod.snd (keys_nodup_eq_of_mem _ hIds p hp q hq' hpq)

theorem dPairs_nil : dPairs [] = [] := rfl

theorem dPairs_cons (kv : List Char × List Nat) (d : List (List Char × List Nat)) :
    dPairs (kv :: d) = kv.2.map (fun tid => (tid, kv.1)) ++ dPairs d := by
  unfold dPairs
  rw [List.flatMap_cons]

theorem dPairs_append (d1 d2 : List (List Char × List Nat)) :
    dPairs (d1 ++ d2) = dPairs d1 ++ dPairs d2 := by
  unfold dPairs
  rw [List.flatMap_append]

theorem dPairs_del (d : List (List Char × List Nat)) (k : List Char) :
    dPairs (alistDel d k) = (dPairs d).filter (fun p => decide (p.2 ≠ k)) := by
  induction d with
  | nil => rfl
  | cons kv rest ih =>
    unfold alistDel at ih ⊢
    rw [List.filter_cons, dPairs_cons, List.filter_append, ← ih]
    by_cases hk : kv.1 = k
    · rw [if_neg (by simpa using hk)]
      have hz : (kv.2.map (fun tid => (tid, kv.1))).filter
          (fun p => decide (p.2 ≠ k)) = [] := by
        rw [List.filter_eq_nil_iff]
        intro p hp
        obtain ⟨t, _, hte⟩ := List.mem_map.mp hp
        simp [← hte, hk]
      rw [hz, List.nil_append]
    · rw [if_pos (by simpa using hk), dPairs_cons]
      have hs : (kv.2.map (fun tid => (tid, kv.1))).filter
          (fun p => decide (p.2 ≠ k)) = kv.2.map (fun tid => (tid, kv.1)) := by
        rw [List.filter_eq_self]
        intro p hp
        obtain ⟨t, _, hte⟩ := List.mem_map.mp hp
        simp [← hte, hk]
      rw [hs]

theorem mem_dPairs {d : List (List Char × List Nat)} {tid : Nat} {key : List Char} :
    (tid, key) ∈ dPairs d ↔ ∃ l, (key, l) ∈ d ∧ tid ∈ l := by
  constructor
  · intro h
    obtain ⟨kv, hkv, hmem⟩ := List.mem_flatMap.mp h
    obtain ⟨t, ht, hte⟩ := List.mem_map.mp hmem
    obtain ⟨h1, h2⟩ := Prod.mk.injEq .. ▸ hte
    exact ⟨kv.2, by rw [← h2, Prod.mk.eta]; exact hkv, h1 ▸ ht⟩
  · intro ⟨l, hl, ht⟩
    exact List.mem_flatMap.mpr ⟨(key, l), hl, List.mem_map.mpr ⟨tid, ht, rfl⟩⟩

theorem dPairs_filter_key {d : List (List Char × List Nat)}
    (hnd : (d.map Prod.fst).Nodup) {k : List Char} {bl : List Nat}
    (hget : alistGet? d k = some bl) :
    (dPairs d).filter (fun p => decide (p.2 = k)) = bl.map (fun tid => (tid, k)) := by
  induction d with
  | nil => simp [alistGet?] at hget
  | cons kv rest ih =>
    rw [List.map_cons, List.nodup_cons] at hnd
    rw [alistGet?_cons] at hget
    rw [dPairs_cons, List.filter_append]
    by_cases hk : kv.1 = k
    · rw [if_pos hk] at hget
      injection hget with hget'
      have hz : (dPairs rest).filter (fun p => decide (p.2 = k)) = [] := by
        rw [List.filter_eq_nil_iff]
        intro p hp
        simp only [decide_eq_true_eq]
        intro hpe
        obtain ⟨l, hl, _⟩ := mem_dPairs.mp (by rw [← Prod.mk.eta (p := p), hpe] at hp; exact hp)
        exact hnd.1 (hk ▸ List.mem_map_of_mem Prod.fst hl)
      have hs : (kv.2.map (fun tid => (tid, kv.1))).filter
          (fun p => decide (p.2 = k)) = kv.2.map (fun tid => (tid, kv.1)) := by
        rw [List.filter_eq_self]
        intro p hp
        obtain ⟨t, _, hte⟩ := List.mem_map.mp hp
        simp [← hte, hk]
      rw [hz, hs, List.append_nil, hget', hk]
    · rw [if_neg hk] at hget
      have hz : (kv.2.map (fun tid => (tid, kv.1))).filter
          (fun p => decide (p.2 = k)) = [] := by
        rw [List.filter_eq_nil_iff]
        intro p hp
        obtain ⟨t, _, hte⟩ := List.mem_map.mp hp
        simp [← hte, hk]
      rw [hz, List.nil_append, ih hnd.2 hget]

theorem lPairs_cons (q : Nat × List (Nat × List Char))
    (li : List (Nat × List (Nat × List Char))) :
    lPairs (q :: li) = q.2 ++ lPairs li := by
  unfold lPairs
  rw [List.flatMap_cons]

theorem mem_lPairs {li : List (Nat × List (Nat × List Char))} {e : Nat × List Char} :
    e ∈ lPairs li ↔ ∃ ye ∈ li, e ∈ ye.2 := by
  unfold lPairs
  exact List.mem_flatMap

theorem lPairs_map_relabel (oldKey newKey : List Char) (A : List Nat) :
    ∀ li : List (Nat × List (Nat × List Char)),
    (∀ ye ∈ li, ∀ e ∈ ye.2, e.2 = oldKey → ye.1 ∈ A) →
    lPairs (li.map (fun q =>
        if q.1 ∈ A then
          (q.1, q.2.map (fun e => (e.1, if e.2 = oldKey then newKey else e.2)))
        else q)) =
      (lPairs li).map (fun e => (e.1, if e.2 = oldKey then newKey else e.2)) := by
  intro li
  induction li with
  | nil => intro _; rfl
  | cons q rest ih =>
    intro hcov
    rw [List.map_cons, lPairs_cons, lPairs_cons, List.map_append,
        ih (fun ye hye => hcov ye (List.mem_cons_of_mem _ hye))]
    congr 1
    by_cases hqa : q.1 ∈ A
    · rw [if_pos hqa]
    · rw [if_neg hqa]
      symm
      have hid : ∀ e ∈ q.2,
          (fun e : Nat × List Char =>
            (e.1, if e.2 = oldKey then newKey else e.2)) e = id e := by
        intro e he
        have hne : ¬ e.2 = oldKey :=
          fun hh => hqa (hcov q (List.mem_cons_self _ _) e he hh)
        simp only [if_neg hne, id]
      rw [List.map_congr_left hid, List.map_id]

theorem lPairs_relabel (oldKey newKey : List Char) (A : List Nat) (hA : A.Nodup)
    (li : List (Nat × List (Nat × List Char))) (hk : (li.map Prod.fst).Nodup)
    (hcov : ∀ ye ∈ li, ∀ e ∈ ye.2, e.2 = oldKey → ye.1 ∈ A) :
    lPairs (relabelLines oldKey newKey A li) =
      (lPairs li).map (fun e => (e.1, if e.2 = oldKey then newKey else e.2)) := by
  rw [relabelLines_eq oldKey newKey A hA li hk]
  exact lPairs_map_relabel oldKey newKey A li hcov

theorem lPairs_filterMap_removeWord (k : List Char) (A : List Nat) :
    ∀ li : List (Nat × List (Nat × List Char)),
    (∀ ye ∈ li, ∀ e ∈ ye.2, e.2 = k → ye.1 ∈ A) →
    lPairs (li.filterMap (fun q =>
        if q.1 ∈ A then
          (if q.2.filter (fun e => decide (e.2 ≠ k)) = [] then none
           else some (q.1, q.2.filter (fun e => decide (e.2 ≠ k))))
        else some q)) =
      (lPairs li).filter (fun e => decide (e.2 ≠ k)) := by
  intro li
  induction li with
  | nil => intro _; rfl
  | cons q rest ih =>
    intro hcov
    rw [List.filterMap_cons, lPairs_cons, List.filter_append]
    have hrest := ih (fun ye hye => hcov ye (List.mem_cons_of_mem _ hye))
    by_cases hqa : q.1 ∈ A
    · rw [if_pos hqa]
      by_cases hemp : q.2.filter (fun e => decide (e.2 ≠ k)) = []
      · rw [if_pos hemp, hrest, hemp, List.nil_append]
      · rw [if_neg hemp, lPairs_cons, hrest]
    · rw [if_neg hqa, lPairs_cons, hrest]
      congr 1
      symm
      rw [List.filter_eq_self]
      intro e he
      exact decide_eq_true
        (fun hek => hqa (hcov q (List.mem_cons_self _ _) e he hek))

theorem lPairs_removeWord (k : List Char) (A : List Nat) (hA : A.Nodup)
    (li : List (Nat × List (Nat × List Char))) (hk : (li.map Prod.fst).Nodup)
    (hcov : ∀ ye ∈ li, ∀ e ∈ ye.2, e.2 = k → ye.1 ∈ A) :
    lPairs (removeWordFromLines k A li) =
      (lPairs li).filter (fun e => decide (e.2 ≠ k)) := by
  rw [removeWordFromLines_eq k A hA li hk]
  exact lPairs_filterMap_removeWord k A li hcov

theorem lPairs_filterMap_filterdel (y : Nat) (p : (Nat × List Char) → Bool) :
    ∀ li : List (Nat × List (Nat × List Char)),
    (∀ ye ∈ li, ye.1 ≠ y → ∀ e ∈ ye.2, p e = true) →
    lPairs (li.filterMap (fun q =>
        if q.1 = y then
          (if q.2.filter p = [] then none else some (q.1, q.2.filter p))
        else some q)) =
      (lPairs li).filter p := by
  intro li
  induction li with
  | nil => intro _; rfl
  | cons q rest ih =>
    intro hcov
    rw [List.filterMap_cons, lPairs_cons, List.filter_append]
    have hrest := ih (fun ye hye => hcov ye (List.mem_cons_of_mem _ hye))
    by_cases hqy : q.1 = y
    · rw [if_pos hqy]
      by_cases hemp : q.2.filter p = []
      · rw [if_pos hemp, hrest, hemp, List.nil_append]
      · rw [if_neg hemp, lPairs_cons, hrest]
    · rw [if_neg hqy, lPairs_cons, hrest]
      congr 1
      symm
      rw [List.filter_eq_self]
      exact hcov q (List.mem_cons_self _ _) hqy

theorem lPairs_filterdel_step (heap : List TokenRef) (t : Nat)
    (li : List (Nat × List (Nat × List Char)))
    (hk : (li.map Prod.fst).Nodup)
    (hag : ∀ ye ∈ li, ∀ e ∈ ye.2, (hGet heap e.1).start_y = ye.1) :
    lPairs (match alistGet? li (hGet heap t).start_y with
            | none => li
            | some entries =>
                let entries' := entries.filter (fun e => decide (e.1 ≠ t))
                if entries' = [] then alistDel li (hGet heap t).start_y
                else alistSet li (hGet heap t).start_y entries') =
      (lPairs li).filter (fun e => decide (e.1 ≠ t)) := by
  rcases hg : alistGet? li (hGet heap t).start_y with _ | entries
  · have hself : (lPairs li).filter (fun e => decide (e.1 ≠ t)) = lPairs li := by
      rw [List.filter_eq_self]
      intro e he
      apply decide_eq_true
      intro het
      apply alistGet?_eq_none_iff.mp hg
      obtain ⟨ye, hye, hee⟩ := mem_lPairs.mp he
      have hsy := hag ye hye e hee
      rw [het] at hsy
      rw [hsy]
      exact List.mem_map_of_mem Prod.fst hye
    rw [hself]
  · show lPairs
        (if entries.filter (fun e => decide (e.1 ≠ t)) = [] then
          alistDel li (hGet heap t).start_y
         else alistSet li (hGet heap t).start_y
          (entries.filter (fun e => decide (e.1 ≠ t)))) =
      (lPairs li).filter (fun e => decide (e.1 ≠ t))
    rw [alist_filterdel_eq_filterMap hk hg (fun e => decide (e.1 ≠ t))]
    apply lPairs_filterMap_filterdel
    intro ye hye hne e he
    apply decide_eq_true
    intro het
    apply hne
    rw [← hag ye hye e he, het]

theorem lPairs_removeTokens (heap : List TokenRef) :
    ∀ (tids : List Nat) (li : List (Nat × List (Nat × List Char))),
    (li.map Prod.fst).Nodup →
    (∀ ye ∈ li, ∀ e ∈ ye.2, (hGet heap e.1).start_y = ye.1) →
    lPairs (removeTokensFromLines heap tids li) =
      (lPairs li).filter (fun e => decide (e.1 ∉ tids)) := by
  intro tids
  induction tids with
  | nil =>
    intro li _ _
    have hself : (lPairs li).filter (fun e => decide (e.1 ∉ ([] : List Nat))) =
        lPairs li := by
      rw [List.filter_eq_self]
      intro e _
      exact decide_eq_true (List.not_mem_nil _)
    rw [hself]
    rfl
  | cons t rest ih =>
    intro li hk hag
    rw [removeTokensFromLines_cons]
    have hk' := @filterdel_step_keys_nodup li ((hGet heap t).start_y) (fun e => decide (e.1 ≠ t)) hk
    have hag' : ∀ ye ∈ (match alistGet? li (hGet heap t).start_y with
            | none => li
            | some entries =>
                let entries' := entries.filter
                  (fun e : Nat × List Char => decide (e.1 ≠ t))
                if entries' = [] then alistDel li (hGet heap t).start_y
                else alistSet li (hGet heap t).start_y entries'),
        ∀ e ∈ ye.2, (hGet heap e.1).start_y = ye.1 := by
      intro ye hye e he
      obtain ⟨es0, hes0, hsub⟩ := filterdel_step_subset hye
      exact hag (ye.1, es0) hes0 e (hsub e he)
    rw [ih _ hk' hag', lPairs_filterdel_step heap t li hk hag, List.filter_filter]
    apply List.filter_congr
    intro e _
    by_cases h1 : e.1 = t <;> by_cases h2 : e.1 ∈ rest <;>
      simp [h1, h2, List.mem_cons]

theorem syncInv_of_removal (s : SyncState) (k : List Char) (bucket : List Nat)
    (hs : syncInv s) (hg : alistGet? s.dictionary k = some bucket) :
    syncInv { s with
      dictionary := alistDel s.dictionary k
      line_index := removeTokensFromLines s.heap bucket s.line_index } := by
  obtain ⟨hPerm, hIds, hdk, hlk, hag⟩ := hs
  have hagree : ∀ p ∈ dPairs s.dictionary,
      (fun p : Nat × List Char => decide (p.2 ≠ k)) p =
      (fun p : Nat × List Char => decide (p.1 ∉ bucket)) p := by
    intro p hp
    by_cases hpk : p.2 = k
    · have hpb : p.1 ∈ bucket := by
        obtain ⟨l, hl, ht⟩ := mem_dPairs.mp
          (show (p.1, p.2) ∈ dPairs s.dictionary by rw [Prod.mk.eta]; exact hp)
        rw [hpk] at hl
        have hgl := alistGet?_of_mem_nodup hdk hl
        rw [hg] at hgl
        injection hgl with hlb
        exact hlb ▸ ht
      simp [hpk, hpb]
    · by_cases hpb : p.1 ∈ bucket
      · exfalso
        have hkd : (p.1, k) ∈ dPairs s.dictionary :=
          mem_dPairs.mpr ⟨bucket, alistGet?_mem hg, hpb⟩
        have heqp := keys_nodup_eq_of_mem _ hIds (p.1, p.2)
          (by rw [Prod.mk.eta]; exact hp) (p.1, k) hkd rfl
        exact hpk (congrArg Prod.snd heqp)
      · simp [hpk, hpb]
  refine ⟨?_, ?_, ?_, ?_, ?_⟩
  · show dPairs (alistDel s.dictionary k) |>.Perm
      (lPairs (removeTokensFromLines s.heap bucket s.line_index))
    rw [dPairs_del, lPairs_removeTokens s.heap bucket s.line_index hlk hag,
        List.filter_congr hagree]
    exact hPerm.filter _
  · show ((dPairs (alistDel s.dictionary k)).map Prod.fst).Nodup
    rw [dPairs_del]
    exact (((List.filter_sublist _).map Prod.fst).nodup) hIds
  · exact alistDel_keys_nodup k hdk
  · exact removeTokensFromLines_keys_nodup s.heap bucket s.line_index hlk
  · intro ye hye e he
    obtain ⟨es0, hes0, hsub⟩ :=
      removeTokensFromLines_subset s.heap bucket s.line_index ye hye
    exact hag (ye.1, es0) hes0 e (hsub e he)

theorem pruneStep_syncInv (s : SyncState) (k : List Char) (hs : syncInv s) :
    syncInv (pruneStep s k) := by
  rcases hg : alistGet? s.dictionary k with _ | bucket
  · have heq : pruneStep s k = s := by
      unfold pruneStep
      rw [hg, alistDel_of_not_mem (alistGet?_eq_none_iff.mp hg)]
      rfl
    rw [heq]
    exact hs
  · have heq : pruneStep s k =
        { s with
          dictionary := alistDel s.dictionary k
          line_index := removeTokensFromLines s.heap bucket s.line_index } := by
      unfold pruneStep
      rw [hg]
      rfl
    rw [heq]
    exact syncInv_of_removal s k bucket hs hg

theorem pruneFold_syncInv : ∀ (ks : List (List Char)) (s : SyncState),
    syncInv s → syncInv (ks.foldl pruneStep s) := by
  intro ks
  induction ks with
  | nil => intro s hs; exact hs
  | cons k rest ih =>
    intro s hs
    rw [List.foldl_cons]
    exact ih _ (pruneStep_syncInv s k hs)

theorem pruneSingletons_syncInv (s : SyncState) (hs : syncInv s) :
    syncInv (pruneSingletons s) :=
  pruneFold_syncInv _ s hs

theorem removeWordFromLines_subset (k : List Char) (A : List Nat) (hA : A.Nodup)
    (li : List (Nat × List (Nat × List Char))) (hk : (li.map Prod.fst).Nodup)
    (q : Nat × List (Nat × List Char)) (hq : q ∈ removeWordFromLines k A li) :
    ∃ es0, (q.1, es0) ∈ li ∧ ∀ e ∈ q.2, e ∈ es0 := by
  rw [removeWordFromLines_eq k A hA li hk] at hq
  obtain ⟨q0, hq0, hgq⟩ := List.mem_filterMap.mp hq
  by_cases hqa : q0.1 ∈ A
  · rw [if_pos hqa] at hgq
    by_cases hemp : q0.2.filter (fun e => decide (e.2 ≠ k)) = []
    · rw [if_pos hemp] at hgq
      cases hgq
    · rw [if_neg hemp] at hgq
      injection hgq with hgq'
      refine ⟨q0.2, ?_, ?_⟩
      · rw [← hgq']
        show (q0.1, q0.2) ∈ li
        rw [Prod.mk.eta]
        exact hq0
      · intro e he
        rw [← hgq'] at he
        exact List.mem_of_mem_filter he
  · rw [if_neg hqa] at hgq
    injection hgq with hgq'
    refine ⟨q.2, ?_, fun e he => he⟩
    rw [Prod.mk.eta, ← hgq']
    exact hq0

theorem removeWordFromLines_keys_nodup (k : List Char) (A : List Nat) (hA : A.Nodup)
    (li : List (Nat × List (Nat × List Char))) (hk : (li.map Prod.fst).Nodup) :
    ((removeWordFromLines k A li).map Prod.fst).Nodup := by
  rw [removeWordFromLines_eq k A hA li hk]
  refine (keys_filterMap_sublist _ ?_ li).nodup hk
  intro q q' hgq
  by_cases hqa : q.1 ∈ A
  · rw [if_pos hqa] at hgq
    by_cases hemp : q.2.filter (fun e => decide (e.2 ≠ k)) = []
    · rw [if_pos hemp] at hgq
      cases hgq
    · rw [if_neg hemp] at hgq
      injection hgq with hgq'
      rw [← hgq']
  · rw [if_neg hqa] at hgq
    injection hgq with hgq'
    rw [← hgq']

theorem syncInv_of_word_removal (s : SyncState) (k : List Char) (tl : List Nat)
    (hs : syncInv s) (hg : alistGet? s.dictionary k = some tl) :
    syncInv { s with
      dictionary := alistDel s.dictionary k
      line_index := removeWordFromLines k
        ((tl.map (fun tid => (hGet s.heap tid).start_y)).dedup) s.line_index } := by
  obtain ⟨hPerm, hIds, hdk, hlk, hag⟩ := hs
  have hcov : ∀ ye ∈ s.line_index, ∀ e ∈ ye.2, e.2 = k →
      ye.1 ∈ (tl.map (fun tid => (hGet s.heap tid).start_y)).dedup := by
    intro ye hye e he hek
    have hlp : (e.1, k) ∈ lPairs s.line_index := by
      rw [← hek, Prod.mk.eta]
      exact mem_lPairs.mpr ⟨ye, hye, he⟩
    have hdp : (e.1, k) ∈ dPairs s.dictionary := hPerm.symm.subset hlp
    obtain ⟨l, hl, ht⟩ := mem_dPairs.mp hdp
    have hgl := alistGet?_of_mem_nodup hdk hl
    rw [hg] at hgl
    injection hgl with hlb
    rw [List.mem_dedup, ← hag ye hye e he]
    exact List.mem_map_of_mem _ (hlb ▸ ht)
  refine ⟨?_, ?_, ?_, ?_, ?_⟩
  · show dPairs (alistDel s.dictionary k) |>.Perm
      (lPairs (removeWordFromLines k
        ((tl.map (fun tid => (hGet s.heap tid).start_y)).dedup) s.line_index))
    rw [dPairs_del,
        lPairs_removeWord k _ (List.nodup_dedup _) s.line_index hlk hcov]
    exact hPerm.filter _
  · show ((dPairs (alistDel s.dictionary k)).map Prod.fst).Nodup
    rw [dPairs_del]
    exact (((List.filter_sublist _).map Prod.fst).nodup) hIds
  · exact alistDel_keys_nodup k hdk
  · exact removeWordFromLines_keys_nodup k _ (List.nodup_dedup _) s.line_index hlk
  · intro ye hye e he
    obtain ⟨es0, hes0, hsub⟩ := removeWordFromLines_subset k _
      (List.nodup_dedup _) s.line_index hlk ye hye
    exact hag (ye.1, es0) hes0 e (hsub e he)

theorem cleanupEmptyWord_syncInv (s : SyncState) (k : List Char) (hs : syncInv s) :
    syncInv (cleanupEmptyWord s k).1 := by
  by_cases h0 : k = []
  · have heq : cleanupEmptyWord s k = (s, false) := by
      unfold cleanupEmptyWord
      rw [if_pos h0]
    rw [heq]
    exact hs
  rcases hg : alistGet? s.dictionary k with _ | tl
  · have heq : cleanupEmptyWord s k = (s, false) := by
      unfold cleanupEmptyWord
      rw [if_neg h0, hg]
    rw [heq]
    exact hs
  by_cases hnil : tl = []
  · have heq : cleanupEmptyWord s k = (s, false) := by
      unfold cleanupEmptyWord
      rw [if_neg h0, hg]
      simp only
      rw [if_pos hnil]
    rw [heq]
    exact hs
  rcases hall : tl.all (fun tid =>
      decide ((hGet s.heap tid).text = [] ∨
        (hGet s.heap tid).start_x = (hGet s.heap tid).end_x)) with _ | _
  · have heq : cleanupEmptyWord s k = (s, false) := by
      unfold cleanupEmptyWord
      rw [if_neg h0, hg]
      simp only
      rw [if_neg hnil, if_neg (by rw [hall]; exact Bool.false_ne_true)]
    rw [heq]
    exact hs
  · have heq : cleanupEmptyWord s k =
        ({ s with
           dictionary := alistDel s.dictionary k
           line_index := removeWordFromLines k
             ((tl.map (fun tid => (hGet s.heap tid).start_y)).dedup)
             s.line_index }, true) := by
      unfold cleanupEmptyWord
      rw [if_neg h0, hg]
      simp only
      rw [if_neg hnil, if_pos hall]
    rw [heq]
    exact syncInv_of_word_removal s k tl hs hg

theorem redraw_main_eq (w : Char → Bool) (cs : Bool) (lines : List (List Char))
    (fx fy : Nat) (rest : List (Nat × Nat)) (s : SyncState) (oldKey : List Char)
    (t0 : Nat) (bl' : List Nat) (newKey : List Char) (delta : Int)
    (hok : s.our_key = some oldKey)
    (hed : alistGet? s.dictionary oldKey = some (t0 :: bl'))
    (hnk : newKey = newWordAt w cs (getLine lines fy) fx)
    (hdl : delta = (newKey.length : Int) - ((hGet s.heap t0).text.length : Int)) :
    redraw w cs lines ((fx, fy) :: rest) s =
      (if delta = 0 ∧ oldKey = newKey then { s with our_key := some oldKey }
       else if newKey ≠ [] ∧ oldKey ≠ newKey then
         { heap := (t0 :: bl').foldl
             (processOne w lines newKey delta (hGet s.heap t0).text.length
               s.line_index) s.heap
           dictionary := alistDel (alistSet s.dictionary newKey (t0 :: bl')) oldKey
           line_index := relabelLines oldKey newKey
             (((t0 :: bl').map (fun tid => (hGet s.heap tid).start_y)).dedup)
             s.line_index
           our_key := some newKey }
       else { s with
           heap := (t0 :: bl').foldl
             (processOne w lines newKey delta (hGet s.heap t0).text.length
               s.line_index) s.heap
           our_key := some oldKey }) := by
  subst hnk
  subst hdl
  unfold redraw
  rw [hok]
  simp only [hed, Option.getD_some]

theorem redraw_branches_syncInv (w : Char → Bool) (lines : List (List Char))
    (s : SyncState) (oldKey newKey : List Char) (delta : Int)
    (t0 : Nat) (bl' : List Nat)
    (hs : syncInv s)
    (hed : alistGet? s.dictionary oldKey = some (t0 :: bl'))
    (hnc : newKey = [] ∨ newKey = oldKey ∨ newKey ∉ s.dictionary.map Prod.fst) :
    syncInv
      (if delta = 0 ∧ oldKey = newKey then { s with our_key := some oldKey }
       else if newKey ≠ [] ∧ oldKey ≠ newKey then
         { heap := (t0 :: bl').foldl
             (processOne w lines newKey delta (hGet s.heap t0).text.length
               s.line_index) s.heap
           dictionary := alistDel (alistSet s.dictionary newKey (t0 :: bl')) oldKey
           line_index := relabelLines oldKey newKey
             (((t0 :: bl').map (fun tid => (hGet s.heap tid).start_y)).dedup)
             s.line_index
           our_key := some newKey }
       else { s with
           heap := (t0 :: bl').foldl
             (processOne w lines newKey delta (hGet s.heap t0).text.length
               s.line_index) s.heap
           our_key := some oldKey }) := by
  obtain ⟨hPerm, hIds, hdk, hlk, hag⟩ := hs
  by_cases h1 : delta = 0 ∧ oldKey = newKey
  · rw [if_pos h1]
    exact ⟨hPerm, hIds, hdk, hlk, hag⟩
  rw [if_neg h1]
  by_cases h2 : newKey ≠ [] ∧ oldKey ≠ newKey
  · rw [if_pos h2]
    have hnot : newKey ∉ s.dictionary.map Prod.fst := by
      rcases hnc with h | h | h
      · exact absurd h h2.1
      · exact absurd h.symm h2.2
      · exact h
    have hset : alistSet s.dictionary newKey (t0 :: bl') =
        s.dictionary ++ [(newKey, t0 :: bl')] := alistSet_of_not_mem _ hnot
    have hdel : alistDel (s.dictionary ++ [(newKey, t0 :: bl')]) oldKey =
        alistDel s.dictionary oldKey ++ [(newKey, t0 :: bl')] := by
      unfold alistDel
      rw [List.filter_append]
      congr 1
      rw [List.filter_eq_self]
      intro p hp
      rw [List.mem_singleton] at hp
      rw [hp]
      exact decide_eq_true (Ne.symm h2.2)
    have hdp : dPairs (alistDel (alistSet s.dictionary newKey (t0 :: bl')) oldKey) =
        (dPairs s.dictionary).filter (fun p => decide (p.2 ≠ oldKey)) ++
        (t0 :: bl').map (fun tid => (tid, newKey)) := by
      rw [hset, hdel, dPairs_append, dPairs_del, dPairs_cons, dPairs_nil,
        List.append_nil]
    have hcov : ∀ ye ∈ s.line_index, ∀ e ∈ ye.2, e.2 = oldKey →
        ye.1 ∈ ((t0 :: bl').map (fun tid => (hGet s.heap tid).start_y)).dedup := by
      intro ye hye e he hek
      have hlpm : (e.1, oldKey) ∈ lPairs s.line_index := by
        rw [← hek, Prod.mk.eta]
        exact mem_lPairs.mpr ⟨ye, hye, he⟩
      have hdpm : (e.1, oldKey) ∈ dPairs s.dictionary := hPerm.symm.subset hlpm
      obtain ⟨l, hl, ht⟩ := mem_dPairs.mp hdpm
      have hgl := alistGet?_of_mem_nodup hdk hl
      rw [hed] at hgl
      injection hgl with hlb
      rw [List.mem_dedup, ← hag ye hye e he]
      exact List.mem_map_of_mem _ (hlb ▸ ht)
    have hlp : lPairs (relabelLines oldKey newKey
        (((t0 :: bl').map (fun tid => (hGet s.heap tid).start_y)).dedup)
        s.line_index) =
        (lPairs s.line_index).map
          (fun e => (e.1, if e.2 = oldKey then newKey else e.2)) :=
      lPairs_relabel oldKey newKey _ (List.nodup_dedup _) s.line_index hlk hcov
    have hsplit : ((dPairs s.dictionary).filter (fun p => decide (p.2 ≠ oldKey)) ++
        (dPairs s.dictionary).filter (fun p => decide (p.2 = oldKey))).Perm
        (dPairs s.dictionary) := by
      have h0 := List.filter_append_perm
        (fun p : Nat × List Char => decide (p.2 ≠ oldKey)) (dPairs s.dictionary)
      have hcg : (dPairs s.dictionary).filter
          (fun a => !(decide (a.2 ≠ oldKey))) =
          (dPairs s.dictionary).filter (fun p => decide (p.2 = oldKey)) := by
        apply List.filter_congr
        intro a _
        by_cases h : a.2 = oldKey <;> simp [h]
      rw [hcg] at h0
      exact h0
    have hFeq : (dPairs s.dictionary).filter (fun p => decide (p.2 = oldKey)) =
        (t0 :: bl').map (fun tid => (tid, oldKey)) := dPairs_filter_key hdk hed
    have hDmap : ((dPairs s.dictionary).filter
        (fun p => decide (p.2 ≠ oldKey))).map
          (fun e => (e.1, if e.2 = oldKey then newKey else e.2)) =
        (dPairs s.dictionary).filter (fun p => decide (p.2 ≠ oldKey)) := by
      have hid : ∀ p ∈ (dPairs s.dictionary).filter
          (fun p => decide (p.2 ≠ oldKey)),
          (fun e : Nat × List Char =>
            (e.1, if e.2 = oldKey then newKey else e.2)) p = id p := by
        intro p hp
        have hne : p.2 ≠ oldKey := of_decide_eq_true (List.mem_filter.mp hp).2
        simp only [if_neg hne, id, Prod.mk.eta]
      rw [List.map_congr_left hid, List.map_id]
    have hEmap : (((t0 :: bl').map (fun tid => (tid, oldKey))).map
        (fun e => (e.1, if e.2 = oldKey then newKey else e.2))) =
        (t0 :: bl').map (fun tid => (tid, newKey)) := by
      rw [List.map_map]
      apply List.map_congr_left
      intro tid _
      simp
    refine ⟨?_, ?_, ?_, ?_, ?_⟩
    · show (dPairs (alistDel (alistSet s.dictionary newKey (t0 :: bl'))
          oldKey)).Perm
        (lPairs (relabelLines oldKey newKey
          (((t0 :: bl').map (fun tid => (hGet s.heap tid).start_y)).dedup)
          s.line_index))
      rw [hdp, hlp, ← hDmap, ← hEmap, ← hFeq, ← List.map_append]
      exact ((hsplit.map _).trans (hPerm.map _))
    · show ((dPairs (alistDel (alistSet s.dictionary newKey (t0 :: bl'))
          oldKey)).map Prod.fst).Nodup
      rw [hdp, List.map_append, List.map_map]
      have hfst2 : ((t0 :: bl').map
          ((fun p : Nat × List Char => p.1) ∘ (fun tid => (tid, newKey)))) =
          t0 :: bl' := by
        have hid : ∀ t ∈ t0 :: bl',
            ((fun p : Nat × List Char => p.1) ∘ (fun tid => (tid, newKey))) t =
            id t := by
          intro t _
          rfl
        rw [List.map_congr_left hid, List.map_id]
      have hfst3 : ((t0 :: bl').map (fun tid => (tid, oldKey))).map Prod.fst =
          t0 :: bl' := by
        rw [List.map_map]
        have hid : ∀ t ∈ t0 :: bl',
            (Prod.fst ∘ (fun tid : Nat => (tid, oldKey))) t = id t := by
          intro t _
          rfl
        rw [List.map_congr_left hid, List.map_id]
      rw [show ((fun p : Nat × List Char => p.1)) = Prod.fst from rfl] at hfst2
      rw [hfst2, ← hfst3, ← hFeq, ← List.map_append]
      exact (hsplit.map Prod.fst).symm.nodup hIds
    · show ((alistDel (alistSet s.dictionary newKey (t0 :: bl')) oldKey).map
        Prod.fst).Nodup
      rw [hset, hdel, List.map_append]
      rw [List.nodup_append]
      refine ⟨alistDel_keys_nodup _ hdk, by simp, ?_⟩
      intro a ha hb
      simp only [List.map_cons, List.map_nil, List.mem_singleton] at hb
      apply hnot
      rw [← hb]
      exact ((List.filter_sublist _).map Prod.fst).subset ha
    · show ((relabelLines oldKey newKey
          (((t0 :: bl').map (fun tid => (hGet s.heap tid).start_y)).dedup)
          s.line_index).map Prod.fst).Nodup
      rw [relabelLines_eq oldKey newKey _ (List.nodup_dedup _) s.line_index hlk,
        List.map_map]
      have hid : ∀ q ∈ s.line_index,
          (Prod.fst ∘ (fun q : Nat × List (Nat × List Char) =>
            if q.1 ∈ ((t0 :: bl').map
                (fun tid => (hGet s.heap tid).start_y)).dedup then
              (q.1, q.2.map (fun e => (e.1, if e.2 = oldKey then newKey else e.2)))
            else q)) q = Prod.fst q := by
        intro q _
        by_cases hq : q.1 ∈ ((t0 :: bl').map
            (fun tid => (hGet s.heap tid).start_y)).dedup
        · rw [Function.comp_apply, if_pos hq]
        · rw [Function.comp_apply, if_neg hq]
      rw [List.map_congr_left hid]
      exact hlk
    · intro ye hye e he
      have hye' : ye ∈ relabelLines oldKey newKey
          (((t0 :: bl').map (fun tid => (hGet s.heap tid).start_y)).dedup)
          s.line_index := hye
      show (hGet ((t0 :: bl').foldl
          (processOne w lines newKey delta (hGet s.heap t0).text.length
            s.line_index) s.heap) e.1).start_y = ye.1
      rw [foldProcess_start_y]
      rw [relabelLines_eq oldKey newKey _ (List.nodup_dedup _) s.line_index hlk]
        at hye'
      obtain ⟨q, hq, hfq⟩ := List.mem_map.mp hye'
      by_cases hqa : q.1 ∈ ((t0 :: bl').map
          (fun tid => (hGet s.heap tid).start_y)).dedup
      · rw [if_pos hqa] at hfq
        rw [← hfq] at he ⊢
        obtain ⟨e0, he0, hge⟩ := List.mem_map.mp he
        rw [← hge]
        exact hag q hq e0 he0
      · rw [if_neg hqa] at hfq
        rw [← hfq] at he ⊢
        exact hag q hq e he
  · rw [if_neg h2]
    refine ⟨hPerm, hIds, hdk, hlk, ?_⟩
    intro ye hye e he
    show (hGet ((t0 :: bl').foldl
        (processOne w lines newKey delta (hGet s.heap t0).text.length
          s.line_index) s.heap) e.1).start_y = ye.1
    rw [foldProcess_start_y]
    exact hag ye hye e he

theorem redraw_syncInv (w : Char → Bool) (cs : Bool) (lines : List (List Char))
    (carets : List (Nat × Nat)) (s : SyncState) (hs : syncInv s)
    (hnc : ∀ oldKey fx fy rest, s.our_key = some oldKey →
      carets = (fx, fy) :: rest →
      newWordAt w cs (getLine lines fy) fx = [] ∨
      newWordAt w cs (getLine lines fy) fx = oldKey ∨
      newWordAt w cs (getLine lines fy) fx ∉ s.dictionary.map Prod.fst) :
    syncInv (redraw w cs lines carets s) := by
  rcases hok : s.our_key with _ | oldKey
  · have heq : redraw w cs lines carets s = s := by
      unfold redraw
      rw [hok]
    rw [heq]
    exact hs
  rcases carets with _ | ⟨⟨fx, fy⟩, rest⟩
  · have heq : redraw w cs lines [] s = { s with our_key := none } := by
      unfold redraw
      rw [hok]
    rw [heq]
    exact hs
  rcases hed : alistGet? s.dictionary oldKey with _ | bl
  · have heq : redraw w cs lines ((fx, fy) :: rest) s =
        { s with our_key := none } := by
      unfold redraw
      rw [hok]
      simp only [hed, Option.getD_none]
    rw [heq]
    exact hs
  rcases bl with _ | ⟨t0, bl'⟩
  · have heq : redraw w cs lines ((fx, fy) :: rest) s =
        { s with our_key := none } := by
      unfold redraw
      rw [hok]
      simp only [hed, Option.getD_some]
    rw [heq]
    exact hs
  rw [redraw_main_eq w cs lines fx fy rest s oldKey t0 bl'
    (newWordAt w cs (getLine lines fy) fx)
    ((((newWordAt w cs (getLine lines fy) fx).length : Int)) -
      ((hGet s.heap t0).text.length : Int)) hok hed rfl rfl]
  exact redraw_branches_syncInv w lines s oldKey
    (newWordAt w cs (getLine lines fy) fx) _ t0 bl' hs hed
    (hnc oldKey fx fy rest hok rfl)

/-- C2 counterexample: the correspondence invariant is broken exactly in the
case the claim's final clause asserts it survives.  In `colState` the session
holds groups `aa -> {0, 2}` and `bb -> {1, 3}` and the invariant holds; after
`redraw` relabels the edited group `aa` to `bb` (the buffer reads `bb bb` on
both lines), `dictionary["bb"]` is overwritten with `[0, 2]` (lines 2185-2204
overwrite, never merge), so the pre-existing tokens 1 and 3 are left in
`line_index` under `"bb"` while no dictionary bucket holds them: they no
longer appear in exactly one bucket of each map. -/
theorem token_correspondence_counterexample :
    tokenInv colState ∧
    ¬ tokenInv (redraw exW true ["bb bb".toList, "bb bb".toList] [(1, 0)]
      colState) := by
  decide

/-- C2 (amended): the correspondence invariant — every token held by the
session appears in exactly one `dictionary` bucket and exactly one
`line_index` entry, under the same key (`tokenInv`) — follows from the
structural invariant `syncInv`, and `syncInv` is preserved by singleton
pruning, by empty-word cleanup, and by the live-edit propagator `redraw`
provided the derived new word does not collide with a pre-existing bucket of
a *different* group (it is empty, equal to the tracked key, or absent from the
dictionary).  In the excluded collision case the source deliberately
overwrites the bucket and orphans the pre-existing group's tokens (see the
counterexample). -/
theorem token_correspondence_amended :
    (∀ s : SyncState, syncInv s → tokenInv s) ∧
    (∀ s : SyncState, syncInv s → syncInv (pruneSingletons s)) ∧
    (∀ (s : SyncState) (k : List Char), syncInv s →
      syncInv (cleanupEmptyWord s k).1) ∧
    (∀ (w : Char → Bool) (cs : Bool) (lines : List (List Char))
       (carets : List (Nat × Nat)) (s : SyncState),
       syncInv s →
       (∀ oldKey fx fy rest, s.our_key = some oldKey →
         carets = (fx, fy) :: rest →
         newWordAt w cs (getLine lines fy) fx = [] ∨
         newWordAt w cs (getLine lines fy) fx = oldKey ∨
         newWordAt w cs (getLine lines fy) fx ∉ s.dictionary.map Prod.fst) →
       tokenInv (redraw w cs lines carets s) ∧
       syncInv (redraw w cs lines carets s)) :=
  ⟨syncInv_imp_tokenInv,
   pruneSingletons_syncInv,
   cleanupEmptyWord_syncInv,
   fun w cs lines carets s hs hnc =>
     ⟨syncInv_imp_tokenInv _ (redraw_syncInv w cs lines carets s hs hnc),
      redraw_syncInv w cs lines carets s hs hnc⟩⟩
